import Mathlib

/-!
Verification of the sgf-parser repository (SGF game-record parser and
serializer).  The embedding models Rust strings as lists of UTF-8 bytes
(natural numbers below 256), so that byte-length checks, byte indexing and
char-boundary panics of the source are representable.  Machine integers are
modelled as Nat with explicit wrap-around where the source can overflow
(release-mode semantics of u8 subtraction).  Fallible operations return
Option or Except; operations that can panic in Rust return Option with
none modelling the panic.

Two deliberate modelling choices, noted where they are used:
- f32 payloads (Komi, WinnerByPoints) are represented by the byte string
  that decoded into them; acceptance by f32 from_str is modelled by an
  executable recognizer of the documented float grammar.
- char::is_uppercase and str::to_lowercase are modelled on the ASCII range
  (identifiers in the dispatch table and every concrete input used in the
  theorems are ASCII; non-ASCII value bytes pass through both unchanged,
  which matches Rust for the lowercase and caseless code points used here).
-/

namespace Sgf

/-- A Rust string modelled as its UTF-8 bytes. -/
abbrev Str := List Nat

/-- Bytes of an ASCII string literal (used only with ASCII literals). -/
def litBytes (s : String) : Str := s.data.map Char.toNat

/-- Models char::is_uppercase on the ASCII range (see module comment). -/
def isUppercaseChar (b : Nat) : Bool := 65 ≤ b && b ≤ 90

/-- ASCII lowercase letter a-z. -/
def isLowerAlpha (b : Nat) : Bool := 97 ≤ b && b ≤ 122

/-- ASCII letter (either case), the identifier alphabet of the SGF grammar. -/
def isAsciiAlpha (b : Nat) : Bool := isUppercaseChar b || isLowerAlpha b

/-- ASCII digit 0-9. -/
def isDigitByte (b : Nat) : Bool := 48 ≤ b && b ≤ 57

/-- Models str::to_lowercase per byte on the ASCII range (see module comment). -/
def toLowercaseByte (b : Nat) : Nat := if 65 ≤ b && b ≤ 90 then b + 32 else b

/-- Models str::to_lowercase (see module comment). -/
def toLowercase (s : Str) : Str := s.map toLowercaseByte

/-- A UTF-8 continuation byte 10xxxxxx. -/
def isContinuationByte (b : Nat) : Bool := 128 ≤ b && b < 192

/-- Models str::is_char_boundary: position i is a boundary when it is the
end of the string or the byte there does not continue a multi-byte char. -/
def isCharBoundary (s : Str) (i : Nat) : Bool :=
  if i = s.length then true
  else match s.get? i with
    | some b => !isContinuationByte b
    | none => false

/-- Models str::split_at: none models the char-boundary panic. -/
def splitAtChecked (s : Str) (i : Nat) : Option (Str × Str) :=
  if isCharBoundary s i then some (s.take i, s.drop i) else none

/-- Models the slice s[1..]: none models the char-boundary panic. -/
def sliceFrom1 (s : Str) : Option Str :=
  if isCharBoundary s 1 then some (s.drop 1) else none

/-- UTF-8 encoding of one code point (only points below 0x10000 occur here:
u8 as char is at most 255). -/
def utf8Encode (c : Nat) : Str :=
  if c < 128 then [c]
  else if c < 2048 then [192 + c / 64, 128 + c % 64]
  else [224 + c / 4096, 128 + c / 64 % 64, 128 + c % 64]

/-- Digits-only decimal accumulator: none unless the bytes are one or more
ASCII digits. -/
def decDigitsToNat : Str → Option Nat
  | [] => none
  | l => if l.all isDigitByte then some (l.foldl (fun a b => a * 10 + (b - 48)) 0) else none

/-- Models the FromStr instances of the unsigned integer types: an optional
leading plus sign, one or more digits, and failure above the type bound. -/
def rustParseUInt (bound : Nat) (s : Str) : Option Nat :=
  let body := match s with
    | 43 :: rest => decDigitsToNat rest
    | _ => decDigitsToNat s
  match body with
  | some n => if n < bound then some n else none
  | none => none

/-- u32::from_str. -/
def rustParseU32 (s : Str) : Option Nat := rustParseUInt (2 ^ 32) s

/-- u8::from_str. -/
def rustParseU8 (s : Str) : Option Nat := rustParseUInt (2 ^ 8) s

/-- One or more ASCII digits. -/
def isDigits (s : Str) : Bool := !s.isEmpty && s.all isDigitByte

/-- Mantissa of the float grammar: digits, digits point digits, digits
point, or point digits. -/
def isFloatMantissa (s : Str) : Bool :=
  match s.splitOn 46 with
  | [a] => isDigits a
  | [a, b] => (isDigits a && b.isEmpty) || (a.isEmpty && isDigits b) || (isDigits a && isDigits b)
  | _ => false

/-- Exponent part after the mantissa: empty, or e/E with optional sign and
digits. -/
def isFloatExponent (s : Str) : Bool :=
  match s with
  | [] => true
  | e :: rest =>
    if e = 101 || e = 69 then
      match rest with
      | 43 :: d => isDigits d
      | 45 :: d => isDigits d
      | d => isDigits d
    else false

/-- Splits a float body at the first e/E into mantissa and exponent. -/
def floatSplitExp (s : Str) : Str × Str :=
  match s.findIdx? (fun b => b = 101 || b = 69) with
  | some i => (s.take i, s.drop i)
  | none => (s, [])

/-- Models acceptance by f32::from_str: optional sign, then inf, infinity or
nan (case-insensitive) or a decimal mantissa with optional exponent. -/
def rustF32Accepts (s : Str) : Bool :=
  let body := match s with
    | 43 :: rest => rest
    | 45 :: rest => rest
    | _ => s
  let low := toLowercase body
  if low = litBytes "inf" || low = litBytes "infinity" || low = litBytes "nan" then true
  else
    let p := floatSplitExp body
    isFloatMantissa p.1 && isFloatExponent p.2

/-- Decimal rendering of a Nat, as the Display impls of the unsigned
integer types produce it. -/
def natToDec (n : Nat) : Str := (Nat.toDigits 10 n).map Char.toNat

/-- Indicates what color the token is related to (token.rs). -/
inductive Color where
  | Black
  | White
deriving DecidableEq, Repr

/-- The not-operator on Color (token.rs, impl Not for Color). -/
def Color.not : Color → Color
  | .Black => .White
  | .White => .Black

/-- An f32 payload, represented by the byte string it was decoded from
(see module comment). -/
abbrev F32 := Str

/-- Game outcome (token.rs). -/
inductive Outcome where
  | WinnerByResign (color : Color)
  | WinnerByForfeit (color : Color)
  | WinnerByPoints (color : Color) (score : F32)
  | WinnerByTime (color : Color)
  | Draw
deriving DecidableEq, Repr

/-- Rule sets (token.rs). -/
inductive RuleSet where
  | Japanese
  | NZ
  | GOE
  | AGA
  | Chinese
  | Unknown (value : Str)
deriving DecidableEq, Repr

/-- From for RuleSet (token.rs). -/
def ruleSetFrom (s : Str) : RuleSet :=
  if s = litBytes "Japanese" then .Japanese
  else if s = litBytes "AGA" then .AGA
  else if s = litBytes "NZ" then .NZ
  else if s = litBytes "Chinese" then .Chinese
  else if s = litBytes "GOE" then .GOE
  else .Unknown s

/-- ToString for RuleSet (token.rs). -/
def ruleSetToString : RuleSet → Str
  | .Japanese => litBytes "Japanese"
  | .NZ => litBytes "NZ"
  | .GOE => litBytes "GOE"
  | .AGA => litBytes "AGA"
  | .Chinese => litBytes "Chinese"
  | .Unknown v => v

/-- A move action (token.rs). -/
inductive Action where
  | Move (x : Nat) (y : Nat)
  | Pass
deriving DecidableEq, Repr

/-- Game type (token.rs). -/
inductive Game where
  | Go
  | Other (n : Nat)
deriving DecidableEq, Repr

/-- Charset encoding (token.rs). -/
inductive Encoding where
  | UTF8
  | Other (s : Str)
deriving DecidableEq, Repr

/-- Variation display mode (token.rs). -/
inductive DisplayNodes where
  | Children
  | Siblings
deriving DecidableEq, Repr

/-- Enum describing all possible SGF Properties (token.rs). -/
inductive SgfToken where
  | Add (color : Color) (coordinate : Nat × Nat)
  | Move (color : Color) (action : Action)
  | Time (color : Color) (time : Nat)
  | PlayerName (color : Color) (name : Str)
  | PlayerRank (color : Color) (rank : Str)
  | Game (game : Game)
  | Rule (rule : RuleSet)
  | Result (outcome : Outcome)
  | Komi (komi : F32)
  | Event (value : Str)
  | Copyright (value : Str)
  | GameName (value : Str)
  | VariationDisplay (nodes : DisplayNodes) (onBoardDisplay : Bool)
  | Place (value : Str)
  | Date (value : Str)
  | Size (width : Nat) (height : Nat)
  | Overtime (value : Str)
  | TimeLimit (time : Nat)
  | MovesRemaining (color : Color) (moves : Nat)
  | Handicap (stones : Nat)
  | Comment (value : Str)
  | Charset (encoding : Encoding)
  | Application (name : Str) (version : Str)
  | Unknown (pair : Str × Str)
  | Invalid (pair : Str × Str)
  | Square (coordinate : Nat × Nat)
  | Triangle (coordinate : Nat × Nat)
  | Label (label : Str) (coordinate : Nat × Nat)
deriving DecidableEq, Repr

/-- Error kind (error.rs). -/
inductive SgfErrorKind where
  | ParseError
deriving DecidableEq, Repr

/-- Splits size input text NN:MM to width and height (token.rs
split_size_text).  The split position is an ASCII colon, always a char
boundary, so the source slice operations cannot panic here. -/
def split_size_text (input : Str) : Option (Nat × Nat) :=
  match input.findIdx? (fun b => b = 58) with
  | none => none
  | some index =>
    match rustParseU32 (input.take index), rustParseU32 ((input.drop index).drop 1) with
    | some width, some height => some (width, height)
    | _, _ => none

/-- Converts a u8 char to numeric coordinates (token.rs): c - 96 with u8
wrap-around (release semantics) modelled explicitly. -/
def convert_u8_to_coordinate (c : Nat) : Nat := (c + 160) % 256

/-- The older conversion of model.rs, which additionally skips the value 9
in the decode direction: n - 96, then n - 1 when n is at least 9. -/
def model_convert_u8_to_coordinate (c : Nat) : Nat :=
  let n := (c + 160) % 256
  if 9 ≤ n then n - 1 else n

/-- Converts goban coordinates to string representation (token.rs
coordinate_to_str): x + 96 as a char, with u8 wrap-around modelled. -/
def coordinate_to_str (coordinate : Nat × Nat) : Str :=
  utf8Encode ((coordinate.1 + 96) % 256) ++ utf8Encode ((coordinate.2 + 96) % 256)

/-- Splits a label text into coordinate and label pair (token.rs
split_label_text).  The outer none models the split_at char-boundary
panic; some none is the too-short failure returned by the source. -/
def split_label_text (input : Str) : Option (Option (Str × Str)) :=
  if 4 ≤ input.length then
    match splitAtChecked input 2 with
    | some pair => some (some pair)
    | none => none
  else some none

/-- token.rs parse_variation_display_str. -/
def parse_variation_display_str (input : Str) : Except SgfErrorKind (DisplayNodes × Bool) :=
  match rustParseU8 input with
  | some 0 => .ok (.Children, true)
  | some 1 => .ok (.Siblings, true)
  | some 2 => .ok (.Children, false)
  | some 3 => .ok (.Siblings, false)
  | _ => .error .ParseError

/-- token.rs parse_application_str.  The split position is an ASCII colon,
always a char boundary. -/
def parse_application_str (input : Str) : Except SgfErrorKind (Str × Str) :=
  match input.findIdx? (fun b => b = 58) with
  | none => .error .ParseError
  | some index => .ok (input.take index, (input.drop index).drop 1)

/-- token.rs parse_outcome_str. -/
def parse_outcome_str (s : Str) : Except SgfErrorKind Outcome :=
  if s = [] || s = litBytes "Void" then .error .ParseError
  else if s = litBytes "Draw" || s = litBytes "D" then .ok .Draw
  else
    match s.splitOn 43 with
    | [l, r] =>
      let winner : Option Color :=
        if l = litBytes "B" then some .Black
        else if l = litBytes "W" then some .White
        else none
      match winner with
      | none => .error .ParseError
      | some winner =>
        if r = litBytes "F" || r = litBytes "Forfeit" then .ok (.WinnerByForfeit winner)
        else if r = litBytes "R" || r = litBytes "Resign" then .ok (.WinnerByResign winner)
        else if r = litBytes "T" || r = litBytes "Time" then .ok (.WinnerByTime winner)
        else if rustF32Accepts r then .ok (.WinnerByPoints winner r)
        else .error .ParseError
    | _ => .error .ParseError

/-- Converts a string describing goban coordinates to numeric coordinates
(token.rs str_to_coordinates).  The final match arm is unreachable because
the modelled to_lowercase preserves the byte length of 2. -/
def str_to_coordinates (input : Str) : Except SgfErrorKind (Nat × Nat) :=
  if input.length ≠ 2 then .error .ParseError
  else
    match (toLowercase input).map convert_u8_to_coordinate with
    | c0 :: c1 :: _ => .ok (c0, c1)
    | _ => .error .ParseError

/-- token.rs move_str_to_coord. -/
def move_str_to_coord (input : Str) : Except SgfErrorKind Action :=
  if input.isEmpty then .ok .Pass
  else
    match str_to_coordinates input with
    | .ok coordinates => .ok (.Move coordinates.1 coordinates.2)
    | .error e => .error e

/-- Converts an identifier and value pair to a SGF token (token.rs
SgfToken::from_pair).  The result none models a panic; some none in the
inner computation is the per-branch decode failure that the final match of
the source turns into Invalid. -/
def fromPair (base_ident value : Str) : Option SgfToken :=
  let ident := base_ident.filter isUppercaseChar
  let token : Option (Option SgfToken) :=
    match ident with
    | [76, 66] => -- LB
      match split_label_text value with
      | none => none
      | some none => some none
      | some (some (coord, label)) =>
        match str_to_coordinates coord with
        | .ok coordinate =>
          match sliceFrom1 label with
          | none => none
          | some rest => some (some (.Label rest coordinate))
        | .error _ => some none
    | [72, 65] => -- HA
      some ((rustParseU32 value).map .Handicap)
    | [82, 85] => -- RU
      some (some (.Rule (ruleSetFrom value)))
    | [83, 81] => -- SQ
      some ((str_to_coordinates value).toOption.map .Square)
    | [84, 82] => -- TR
      some ((str_to_coordinates value).toOption.map .Triangle)
    | [65, 66] => -- AB
      some ((str_to_coordinates value).toOption.map (.Add .Black))
    | [66] => -- B
      some ((move_str_to_coord value).toOption.map (.Move .Black))
    | [66, 76] => -- BL
      some ((rustParseU32 value).map (.Time .Black))
    | [80, 66] => -- PB
      some (some (.PlayerName .Black value))
    | [66, 82] => -- BR
      some (some (.PlayerRank .Black value))
    | [65, 87] => -- AW
      some ((str_to_coordinates value).toOption.map (.Add .White))
    | [87] => -- W
      some ((move_str_to_coord value).toOption.map (.Move .White))
    | [87, 76] => -- WL
      some ((rustParseU32 value).map (.Time .White))
    | [80, 87] => -- PW
      some (some (.PlayerName .White value))
    | [87, 82] => -- WR
      some (some (.PlayerRank .White value))
    | [82, 69] => -- RE
      some ((parse_outcome_str value).toOption.map .Result)
    | [75, 77] => -- KM
      some (if rustF32Accepts value then some (.Komi value) else none)
    | [83, 90] => -- SZ
      some (match split_size_text value with
        | some (width, height) => some (.Size width height)
        | none => (rustParseU32 value).map (fun size => .Size size size))
    | [84, 77] => -- TM
      some ((rustParseU32 value).map .TimeLimit)
    | [69, 86] => -- EV
      some (some (.Event value))
    | [79, 84] => -- OT
      some (some (.Overtime value))
    | [67] => -- C
      some (some (.Comment value))
    | [71, 78] => -- GN
      some (some (.GameName value))
    | [67, 82] => -- CR
      some (some (.Copyright value))
    | [68, 84] => -- DT
      some (some (.Date value))
    | [80, 67] => -- PC
      some (some (.Place value))
    | [71, 77] => -- GM
      some (match rustParseU8 value with
        | some 1 => some (.Game .Go)
        | some n => some (.Game (.Other n))
        | none => some (.Invalid (base_ident, value)))
    | [67, 65] => -- CA
      some (if toLowercase value = litBytes "utf-8" then some (.Charset .UTF8)
        else some (.Charset (.Other value)))
    | [79, 66] => -- OB
      some (match rustParseU32 value with
        | some n => some (.MovesRemaining .Black n)
        | none => some (.Invalid (base_ident, value)))
    | [79, 87] => -- OW
      some (match rustParseU32 value with
        | some n => some (.MovesRemaining .White n)
        | none => some (.Invalid (base_ident, value)))
    | [65, 80] => -- AP
      some ((parse_application_str value).toOption.map (fun p => .Application p.1 p.2))
    | [83, 84] => -- ST
      some ((parse_variation_display_str value).toOption.map (fun p => .VariationDisplay p.1 p.2))
    | _ =>
      some (some (.Unknown (base_ident, value)))
  match token with
  | none => none
  | some (some t) => some t
  | some none => some (.Invalid (base_ident, value))

/-- B or W for a color, as the encoder renders it. -/
def colorBW : Color → Str
  | .Black => litBytes "B"
  | .White => litBytes "W"

/-- Renders a token to its textual form (token.rs, Into String for
SgfToken).  Numeric payloads render through Display; f32 payloads render
as the stored text (see module comment). -/
def encodeToken : SgfToken → Str
  | .Label label coordinate =>
    litBytes "LB[" ++ coordinate_to_str coordinate ++ litBytes ":" ++ label ++ litBytes "]"
  | .Handicap nbStones => litBytes "HA[" ++ natToDec nbStones ++ litBytes "]"
  | .Rule rule => litBytes "RU[" ++ ruleSetToString rule ++ litBytes "]"
  | .Result outcome =>
    match outcome with
    | .WinnerByPoints color points =>
      litBytes "RE[" ++ colorBW color ++ litBytes "+" ++ points ++ litBytes "]"
    | .WinnerByResign color => litBytes "RE[" ++ colorBW color ++ litBytes "+R]"
    | .WinnerByTime color => litBytes "RE[" ++ colorBW color ++ litBytes "+T]"
    | .WinnerByForfeit color => litBytes "RE[" ++ colorBW color ++ litBytes "+F]"
    | .Draw => litBytes "RE[Draw]"
  | .Square coordinate => litBytes "SQ[" ++ coordinate_to_str coordinate ++ litBytes "]"
  | .Triangle coordinate => litBytes "TR[" ++ coordinate_to_str coordinate ++ litBytes "]"
  | .Add color coordinate =>
    (match color with | .Black => litBytes "AB" | .White => litBytes "AW") ++
      litBytes "[" ++ coordinate_to_str coordinate ++ litBytes "]"
  | .Move color action =>
    colorBW color ++ litBytes "[" ++
      (match action with | .Move x y => coordinate_to_str (x, y) | .Pass => []) ++ litBytes "]"
  | .Time color time =>
    (match color with | .Black => litBytes "BL" | .White => litBytes "WL") ++
      litBytes "[" ++ natToDec time ++ litBytes "]"
  | .PlayerName color name =>
    (match color with | .Black => litBytes "PB" | .White => litBytes "PW") ++
      litBytes "[" ++ name ++ litBytes "]"
  | .PlayerRank color rank =>
    (match color with | .Black => litBytes "BR" | .White => litBytes "WR") ++
      litBytes "[" ++ rank ++ litBytes "]"
  | .Komi komi => litBytes "KM[" ++ komi ++ litBytes "]"
  | .Size width height =>
    if width = height then litBytes "SZ[" ++ natToDec width ++ litBytes "]"
    else litBytes "SZ[" ++ natToDec width ++ litBytes ":" ++ natToDec height ++ litBytes "]"
  | .TimeLimit time => litBytes "TM[" ++ natToDec time ++ litBytes "]"
  | .Event value => litBytes "EV[" ++ value ++ litBytes "]"
  | .Comment value => litBytes "C[" ++ value ++ litBytes "]"
  | .Overtime value => litBytes "OT[" ++ value ++ litBytes "]"
  | .GameName value => litBytes "GN[" ++ value ++ litBytes "]"
  | .Copyright value => litBytes "CR[" ++ value ++ litBytes "]"
  | .Date value => litBytes "DT[" ++ value ++ litBytes "]"
  | .Place value => litBytes "PC[" ++ value ++ litBytes "]"
  | .Game game =>
    litBytes "GM[" ++ (match game with | .Go => natToDec 1 | .Other n => natToDec n) ++ litBytes "]"
  | .Charset encoding =>
    litBytes "CA[" ++ (match encoding with | .UTF8 => litBytes "UTF-8" | .Other e => e) ++ litBytes "]"
  | .MovesRemaining color moves =>
    litBytes "O" ++ colorBW color ++ litBytes "[" ++ natToDec moves ++ litBytes "]"
  | .VariationDisplay nodes onBoardDisplay =>
    litBytes "ST[" ++
      natToDec (match nodes, onBoardDisplay with
        | .Children, true => 0
        | .Siblings, true => 1
        | .Children, false => 2
        | .Siblings, false => 3) ++ litBytes "]"
  | .Application name version => litBytes "AP[" ++ name ++ litBytes ":" ++ version ++ litBytes "]"
  | .Unknown p => p.1 ++ litBytes "[" ++ p.2 ++ litBytes "]"
  | .Invalid p => p.1 ++ litBytes "[" ++ p.2 ++ litBytes "]"

/-- Byte-lexicographic order on strings, the Ord used by Rust String. -/
def strLe : Str → Str → Bool
  | [], _ => true
  | _ :: _, [] => false
  | a :: as, b :: bs => if a < b then true else if b < a then false else strLe as bs

/-- Stable insertion by key: the new element goes before the first element
whose key is not smaller, so earlier elements keep their relative order. -/
def insertByKey (key : α → Str) (x : α) : List α → List α
  | [] => [x]
  | y :: ys => if strLe (key x) (key y) then x :: y :: ys else y :: insertByKey key x ys

/-- Stable sort by key; its output on keys matches the stable Vec::sort of
the source. -/
def sortByKey (key : α → Str) : List α → List α
  | [] => []
  | x :: xs => insertByKey key x (sortByKey key xs)

/-- Stable sort of strings (Vec String sort in node.rs). -/
def sortStrs (l : List Str) : List Str := sortByKey id l

/-- A game node, containing a vector of tokens (node.rs). -/
structure GameNode where
  tokens : List SgfToken
deriving DecidableEq, Repr

/-- One step of the node serialization fold (node.rs): offset is the byte
index of the first opening bracket; a rendered token starting with the
previous property text contributes only its bracket part. -/
def nodeFoldStep (acc : Option Str × List Str) (token : Str) : Option Str × List Str :=
  let offset := (token.findIdx? (fun b => b = 91)).getD token.length
  match acc.1 with
  | some prop =>
    if prop.isPrefixOf token then (acc.1, acc.2 ++ [token.drop offset])
    else (some (token.take offset), acc.2 ++ [token])
  | none => (some (token.take offset), acc.2 ++ [token])

/-- Serialization of a node (node.rs, Into String for GameNode): render
every token, sort the rendered strings, then fold with compaction of runs
whose rendered text starts with the previous property identifier. -/
def nodeToText (n : GameNode) : Str :=
  let tokenStrings := sortStrs (n.tokens.map encodeToken)
  (tokenStrings.foldl nodeFoldStep ((none : Option Str), [[59]])).2.flatten

/-- A game tree: a chain of nodes plus child variations (model.rs
GameTree, the shape shared by every snapshot of the model). -/
inductive GameTree where
  | mk (nodes : List GameNode) (variations : List GameTree)

/-- Node chain of a tree. -/
def GameTree.nodes : GameTree → List GameNode
  | .mk ns _ => ns

/-- Variations of a tree. -/
def GameTree.variations : GameTree → List GameTree
  | .mk _ vs => vs

/-- Default for GameTree (model.rs): empty node list, empty variations. -/
def defaultGameTree : GameTree := .mk [] []

mutual

def treeBEq : GameTree → GameTree → Bool
  | .mk ns vs, .mk ns2 vs2 => ns = ns2 && treesBEq vs vs2

def treesBEq : List GameTree → List GameTree → Bool
  | [], [] => true
  | t :: ts, t2 :: ts2 => treeBEq t t2 && treesBEq ts ts2
  | _, _ => false

end

mutual

theorem treeBEq_iff : ∀ t t2 : GameTree, treeBEq t t2 = true ↔ t = t2
  | .mk ns vs, .mk ns2 vs2 => by
    simp [treeBEq, treesBEq_iff vs vs2]

theorem treesBEq_iff : ∀ ts ts2 : List GameTree, treesBEq ts ts2 = true ↔ ts = ts2
  | [], [] => by simp [treesBEq]
  | [], _ :: _ => by simp [treesBEq]
  | _ :: _, [] => by simp [treesBEq]
  | t :: ts, t2 :: ts2 => by
    simp [treesBEq, treeBEq_iff t t2, treesBEq_iff ts ts2]

end

instance : DecidableEq GameTree := fun t t2 =>
  decidable_of_iff (treeBEq t t2 = true) (treeBEq_iff t t2)

instance {ε α : Type} [DecidableEq ε] [DecidableEq α] : DecidableEq (Except ε α) := fun x y =>
  match x, y with
  | .ok a, .ok b => decidable_of_iff (a = b) (by simp)
  | .error a, .error b => decidable_of_iff (a = b) (by simp)
  | .ok _, .error _ => isFalse (by simp)
  | .error _, .ok _ => isFalse (by simp)

/-- Iterator state over a game tree (model.rs GameTreeIterator): the tree
being traversed, the node index, and the selected variation. -/
structure GameTreeIterator where
  tree : GameTree
  index : Nat
  variation : Nat
deriving DecidableEq

/-- model.rs GameTreeIterator::new, reached through GameTree::iter. -/
def GameTreeIterator.new (t : GameTree) : GameTreeIterator := ⟨t, 0, 0⟩

/-- model.rs GameTreeIterator::pick_variation, with the mutable receiver
made explicit: the result pairs the Rust Result with the state after the
call. -/
def pick_variation (it : GameTreeIterator) (variation : Nat) :
    Except Unit Unit × GameTreeIterator :=
  if variation < it.tree.variations.length then
    (.ok (), { it with variation := variation })
  else
    (.error (), it)

/-- model.rs Iterator::next for GameTreeIterator, with the mutable receiver
made explicit.  The unreachable out-of-range arm (a Rust index panic, never
hit because variation is reset to zero on every descent and checked by
pick_variation against the current tree) is modelled as end of iteration. -/
def GameTreeIterator.next (it : GameTreeIterator) : Option (GameNode × GameTreeIterator) :=
  match it.tree.nodes.get? it.index with
  | some node => some (node, { it with index := it.index + 1 })
  | none =>
    if it.tree.variations.isEmpty then none
    else
      match h : it.tree.variations.get? it.variation with
      | some sub => GameTreeIterator.next ⟨sub, 0, 0⟩
      | none => none
termination_by sizeOf it.tree
decreasing_by
  have hm : sub ∈ it.tree.variations := List.get?_mem h
  have h1 : sizeOf sub < sizeOf it.tree.variations := List.sizeOf_lt_of_mem hm
  have h2 : sizeOf it.tree.variations ≤ sizeOf it.tree := by
    cases ht : it.tree with
    | mk ns vs => simp [GameTree.variations]
  omega

/-- Mirror of the spec sentence on Result decoding, written from its words:
empty or Void fails, Draw or D is Draw, otherwise split on plus into
exactly two parts, left must be B or W, right is one of the named outcome
codes or else a floating-point score. -/
def resultSpecDecode (v : Str) : Option Outcome :=
  if v = [] || v = litBytes "Void" then none
  else if v = litBytes "Draw" || v = litBytes "D" then some .Draw
  else
    match v.splitOn 43 with
    | [l, r] =>
      if l = litBytes "B" || l = litBytes "W" then
        let c : Color := if l = litBytes "B" then .Black else .White
        if r = litBytes "F" || r = litBytes "Forfeit" then some (.WinnerByForfeit c)
        else if r = litBytes "R" || r = litBytes "Resign" then some (.WinnerByResign c)
        else if r = litBytes "T" || r = litBytes "Time" then some (.WinnerByTime c)
        else if rustF32Accepts r then some (.WinnerByPoints c r)
        else none
      else none
    | _ => none

mutual

/-- Modelled from the spec: the tree-level serializer (lib.rs declares mod
tree, which holds Into String for GameTree, but tree.rs is absent from the
snapshot).  Spec 4.4: a tree renders as an opening parenthesis, each own
node in order, each variation in order, and a closing parenthesis; the
rendering of a node is the node.rs serializer above. -/
def treeToText : GameTree → Str
  | .mk ns vs => 40 :: (ns.map nodeToText).flatten ++ treesToText vs ++ [41]

/-- Rendering of a list of variations in order. -/
def treesToText : List GameTree → Str
  | [] => []
  | t :: ts => treeToText t ++ treesToText ts

end

/-- The first byte of the input is an ASCII letter. -/
def headIsAlpha (input : Str) : Bool :=
  match input.head? with
  | some b => isAsciiAlpha b
  | none => false

/-- Reads one bracketed value: an opening bracket, bytes up to the first
closing bracket, the closing bracket. -/
def parseValue (input : Str) : Except SgfErrorKind (Str × Str) :=
  if input.head? = some 91 then
    match input.tail.findIdx? (fun b => b = 93) with
    | some i => .ok (input.tail.take i, input.tail.drop (i + 1))
    | none => .error .ParseError
  else .error .ParseError

mutual

/-- Zero or more further bracketed values of one property. -/
def parseValuesLoop : Nat → Str → Except SgfErrorKind (List Str × Str)
  | 0, _ => .error .ParseError
  | fuel + 1, input =>
    if input.head? = some 91 then
      match parseValue input with
      | .ok (v, rest) =>
        match parseValuesLoop fuel rest with
        | .ok (vs, rest2) => .ok (v :: vs, rest2)
        | .error e => .error e
      | .error e => .error e
    else .ok ([], input)

/-- One property: a nonempty letter identifier and one or more values,
each value decoded through the codec.  A decode panic (fromPair none) is
modelled as a parse failure; it is unreachable for the inputs considered
by the theorems below. -/
def parseProperty : Nat → Str → Except SgfErrorKind (List SgfToken × Str)
  | 0, _ => .error .ParseError
  | fuel + 1, input =>
    let ident := input.takeWhile isAsciiAlpha
    if ident.isEmpty then .error .ParseError
    else
      match parseValue (input.drop ident.length) with
      | .ok (v, rest) =>
        match parseValuesLoop fuel rest with
        | .ok (vs, rest2) =>
          match (v :: vs).mapM (fun value => fromPair ident value) with
          | some tokens => .ok (tokens, rest2)
          | none => .error .ParseError
        | .error e => .error e
      | .error e => .error e

/-- Zero or more properties of one node. -/
def parsePropsLoop : Nat → Str → Except SgfErrorKind (List SgfToken × Str)
  | 0, _ => .error .ParseError
  | fuel + 1, input =>
    if headIsAlpha input then
      match parseProperty fuel input with
      | .ok (ts, rest) =>
        match parsePropsLoop fuel rest with
        | .ok (ts2, rest2) => .ok (ts ++ ts2, rest2)
        | .error e => .error e
      | .error e => .error e
    else .ok ([], input)

/-- One node: a semicolon followed by its properties. -/
def parseNode : Nat → Str → Except SgfErrorKind (GameNode × Str)
  | 0, _ => .error .ParseError
  | fuel + 1, input =>
    if input.head? = some 59 then
      match parsePropsLoop fuel input.tail with
      | .ok (ts, rest2) => .ok (⟨ts⟩, rest2)
      | .error e => .error e
    else .error .ParseError

/-- Zero or more further nodes of one sequence. -/
def parseNodesLoop : Nat → Str → Except SgfErrorKind (List GameNode × Str)
  | 0, _ => .error .ParseError
  | fuel + 1, input =>
    if input.head? = some 59 then
      match parseNode fuel input with
      | .ok (n, rest) =>
        match parseNodesLoop fuel rest with
        | .ok (ns, rest2) => .ok (n :: ns, rest2)
        | .error e => .error e
      | .error e => .error e
    else .ok ([], input)

/-- A sequence: one or more nodes. -/
def parseSequence : Nat → Str → Except SgfErrorKind (List GameNode × Str)
  | 0, _ => .error .ParseError
  | fuel + 1, input =>
    match parseNode fuel input with
    | .ok (n, rest) =>
      match parseNodesLoop fuel rest with
      | .ok (ns, rest2) => .ok (n :: ns, rest2)
      | .error e => .error e
    | .error e => .error e

/-- Zero or more nested game trees. -/
def parseTreesLoop : Nat → Str → Except SgfErrorKind (List GameTree × Str)
  | 0, _ => .error .ParseError
  | fuel + 1, input =>
    if input.head? = some 40 then
      match parseGameTree fuel input with
      | .ok (t, rest) =>
        match parseTreesLoop fuel rest with
        | .ok (ts, rest2) => .ok (t :: ts, rest2)
        | .error e => .error e
      | .error e => .error e
    else .ok ([], input)

/-- One game tree: an opening parenthesis, a sequence, nested game trees,
a closing parenthesis. -/
def parseGameTree : Nat → Str → Except SgfErrorKind (GameTree × Str)
  | 0, _ => .error .ParseError
  | fuel + 1, input =>
    if input.head? = some 40 then
      match parseSequence fuel input.tail with
      | .ok (ns, rest2) =>
        match parseTreesLoop fuel rest2 with
        | .ok (ts, rest3) =>
          if rest3.head? = some 41 then .ok (.mk ns ts, rest3.tail)
          else .error .ParseError
        | .error e => .error e
      | .error e => .error e
    else .error .ParseError

end

/-- Modelled from the spec: the missing structural tree builder and parse
entry point (lib.rs exports parse returning Result GameTree SgfError and
says the parsing uses pest; the pest grammar and the builder are absent
from the snapshot, only their tests and callers remain).  Spec 2 gives the
grammar, spec 4.2 the builder and the edge case that an input with no
game-tree at all yields the default empty tree, spec 7 the fatal
ParseError on structural violations.  The fuel bounds the recursion and is
generous enough never to limit an input of this length. -/
def parse (input : Str) : Except SgfErrorKind GameTree :=
  if input.isEmpty then .ok defaultGameTree
  else
    match parseGameTree (16 * input.length + 16) input with
    | .ok (t, _) => .ok t
    | .error e => .error e

/-- Canonical form of a node per the spec round-trip clause: the tokens in
the stable order of their rendered strings. -/
def canonNode (n : GameNode) : GameNode := ⟨sortByKey encodeToken n.tokens⟩

mutual

/-- Canonical form of a tree: every node canonicalized, recursively. -/
def canonTree : GameTree → GameTree
  | .mk ns vs => .mk (ns.map canonNode) (canonTrees vs)

/-- Canonical form of a list of variations. -/
def canonTrees : List GameTree → List GameTree
  | [] => []
  | t :: ts => canonTree t :: canonTrees ts

end

/-- Body of a closed bracket value: some body when the input is the body
followed by one final closing bracket, with no closing bracket inside. -/
def valueShape : Str → Option Str
  | [] => none
  | b :: rest =>
    if b = 93 then (if rest = [] then some [] else none)
    else (valueShape rest).map (fun body => b :: body)

/-- Splits a rendered property into identifier and value when it has the
canonical shape: a nonempty run of uppercase letters, an opening bracket,
a bracket-free body, a closing bracket, nothing after. -/
def propShape (s : Str) : Option (Str × Str) :=
  let id := s.takeWhile isUppercaseChar
  let rest := s.drop id.length
  if id.isEmpty then none
  else if rest.head? = some 91 then
    (valueShape rest.tail).map (fun body => (id, body))
  else none

/-- Leading identifier of a rendered property: its uppercase prefix. -/
def identOf (s : Str) : Str := s.takeWhile isUppercaseChar

/-- The part of a rendered property from its first opening bracket on, the
piece kept by the compaction fold for a run member. -/
def bracketPart (s : Str) : Str :=
  s.drop ((s.findIdx? (fun b => b = 91)).getD s.length)

/-- Two rendered properties share their leading identifier. -/
def sameIdent (a b : Str) : Bool := identOf a = identOf b

/-- Body of a rendered property in canonical shape (empty otherwise). -/
def bodyOf (s : Str) : Str := ((propShape s).map Prod.snd).getD []

/-- Decoding of one rendered property through the codec. -/
def decodeProp (s : Str) : Option SgfToken :=
  match propShape s with
  | some (id, body) => fromPair id body
  | none => none

/-- Rendering of a sorted list of property strings as the compaction fold
produces it: the first string of each same-identifier run in full, the
bracket part of the others. -/
def bodyRender : List Str → Str
  | [] => []
  | s :: ss =>
    s ++ ((ss.takeWhile (fun x => sameIdent x s)).map bracketPart).flatten
      ++ bodyRender (ss.dropWhile (fun x => sameIdent x s))
termination_by l => l.length
decreasing_by
  have hle : ∀ (l : List Str), (l.dropWhile (fun x => sameIdent x s)).length ≤ l.length := by
    intro l
    induction l with
    | nil => simp
    | cons a l2 ih =>
      by_cases ha : sameIdent a s <;> simp [List.dropWhile, ha] <;> omega
  have := hle ss
  simp only [List.length_cons]
  omega

/-- Fuel bound for parsing one rendered node. -/
def nodeNeed (n : GameNode) : Nat := 4 * n.tokens.length + 8

/-- Fuel bound for parsing a rendered node list. -/
def nodesNeed : List GameNode → Nat
  | [] => 1
  | n :: ns => nodeNeed n + nodesNeed ns + 1

mutual

/-- Fuel bound for parsing a rendered tree. -/
def treeNeed : GameTree → Nat
  | .mk ns vs => nodesNeed ns + treesNeed vs + 4

/-- Fuel bound for parsing a rendered variation list. -/
def treesNeed : List GameTree → Nat
  | [] => 1
  | t :: ts => treeNeed t + treesNeed ts + 1

end

/-- A token is codec-faithful when its rendered text has the canonical
property shape and decoding that identifier and value yields the token
back. -/
def tokenWF (t : SgfToken) : Bool :=
  match propShape (encodeToken t) with
  | some (id, body) => fromPair id body = some t
  | none => false

/-- All tokens of a node are codec-faithful. -/
def nodeWF (n : GameNode) : Bool := n.tokens.all tokenWF

mutual

/-- Round-trip well-formedness of a tree: every subtree has a nonempty
node chain (the grammar requires at least one node per sequence) and every
token is codec-faithful. -/
def treeWF : GameTree → Bool
  | .mk ns vs => !ns.isEmpty && ns.all nodeWF && treesWF vs

/-- Round-trip well-formedness of a list of variations. -/
def treesWF : List GameTree → Bool
  | [] => true
  | t :: ts => treeWF t && treesWF ts

end

/-! Helper lemmas. -/

theorem filter_upper_B : (litBytes "B").filter isUppercaseChar = [66] := rfl

theorem filter_upper_W : (litBytes "W").filter isUppercaseChar = [87] := rfl

theorem filter_upper_RE : (litBytes "RE").filter isUppercaseChar = [82, 69] := rfl

theorem fromPair_B_ok (v : Str) (a : Action) (h : move_str_to_coord v = .ok a) :
    fromPair (litBytes "B") v = some (.Move .Black a) := by
  simp only [fromPair, filter_upper_B, h]
  rfl

theorem fromPair_W_ok (v : Str) (a : Action) (h : move_str_to_coord v = .ok a) :
    fromPair (litBytes "W") v = some (.Move .White a) := by
  simp only [fromPair, filter_upper_W, h]
  rfl

theorem fromPair_B_err (v : Str) (e : SgfErrorKind) (h : move_str_to_coord v = .error e) :
    fromPair (litBytes "B") v = some (.Invalid (litBytes "B", v)) := by
  simp only [fromPair, filter_upper_B, h]
  rfl

theorem fromPair_W_err (v : Str) (e : SgfErrorKind) (h : move_str_to_coord v = .error e) :
    fromPair (litBytes "W") v = some (.Invalid (litBytes "W", v)) := by
  simp only [fromPair, filter_upper_W, h]
  rfl

theorem fromPair_RE_ok (v : Str) (o : Outcome) (h : parse_outcome_str v = .ok o) :
    fromPair (litBytes "RE") v = some (.Result o) := by
  simp only [fromPair, filter_upper_RE, h]
  rfl

theorem fromPair_RE_err (v : Str) (e : SgfErrorKind) (h : parse_outcome_str v = .error e) :
    fromPair (litBytes "RE") v = some (.Invalid (litBytes "RE", v)) := by
  simp only [fromPair, filter_upper_RE, h]
  rfl

theorem nodeFoldStep_snd (prev : Option Str) (acc : List Str) (x : Str) :
    ∃ p2 piece, nodeFoldStep (prev, acc) x = (p2, acc ++ [piece]) := by
  unfold nodeFoldStep
  cases prev with
  | none => exact ⟨_, _, rfl⟩
  | some p =>
    dsimp only
    by_cases hp : p.isPrefixOf x
    · rw [if_pos hp]
      exact ⟨_, _, rfl⟩
    · rw [if_neg hp]
      exact ⟨_, _, rfl⟩

theorem nodeFold_acc_extends (l : List Str) :
    ∀ prev acc, ∃ extra, (l.foldl nodeFoldStep (prev, acc)).2 = acc ++ extra := by
  induction l with
  | nil => intro prev acc; exact ⟨[], by simp⟩
  | cons x xs ih =>
    intro prev acc
    obtain ⟨p2, piece, hstep⟩ := nodeFoldStep_snd prev acc x
    obtain ⟨extra, hex⟩ := ih p2 (acc ++ [piece])
    refine ⟨piece :: extra, ?_⟩
    simp only [List.foldl_cons, hstep, hex]
    simp

theorem nodeToText_starts_semicolon (n : GameNode) : (nodeToText n).head? = some 59 := by
  show ((List.foldl nodeFoldStep (none, [[59]]) (sortStrs (n.tokens.map encodeToken))).2.flatten).head? =
    some 59
  obtain ⟨extra, hex⟩ :=
    nodeFold_acc_extends (sortStrs (n.tokens.map encodeToken)) none [[59]]
  rw [hex]
  simp

/-! Sorting lemmas. -/

theorem strLe_refl (a : Str) : strLe a a = true := by
  induction a with
  | nil => rfl
  | cons x xs ih => simp [strLe, ih]

theorem strLe_total (a : Str) : ∀ b, strLe a b = true ∨ strLe b a = true := by
  induction a with
  | nil => intro b; left; rfl
  | cons x xs ih =>
    intro b
    cases b with
    | nil => right; rfl
    | cons y ys =>
      rcases Nat.lt_trichotomy x y with h | h | h
      · left
        show (if x < y then true else if y < x then false else strLe xs ys) = true
        rw [if_pos h]
      · subst h
        have htail := ih ys
        show (if x < x then true else if x < x then false else strLe xs ys) = true ∨
          (if x < x then true else if x < x then false else strLe ys xs) = true
        rw [if_neg (Nat.lt_irrefl x), if_neg (Nat.lt_irrefl x), if_neg (Nat.lt_irrefl x),
          if_neg (Nat.lt_irrefl x)]
        exact htail
      · right
        show (if y < x then true else if x < y then false else strLe ys xs) = true
        rw [if_pos h]

theorem strLe_trans {a b c : Str} (h1 : strLe a b = true) (h2 : strLe b c = true) :
    strLe a c = true := by
  induction a generalizing b c with
  | nil => rfl
  | cons x xs ih =>
    cases b with
    | nil => simp [strLe] at h1
    | cons y ys =>
      cases c with
      | nil => simp [strLe] at h2
      | cons z zs =>
        simp only [strLe] at h1 h2 ⊢
        by_cases hxy : x < y
        · by_cases hyz : y < z
          · rw [if_pos (by omega)]
          · by_cases hzy : z < y
            · rw [if_neg hyz, if_pos hzy] at h2
              exact absurd h2 (by simp)
            · have hyzeq : y = z := by omega
              subst hyzeq
              rw [if_pos hxy]
        · by_cases hyx : y < x
          · rw [if_neg hxy, if_pos hyx] at h1
            exact absurd h1 (by simp)
          · have hxyeq : x = y := by omega
            subst hxyeq
            rw [if_neg (by omega), if_neg (by omega)] at h1
            by_cases hxz : x < z
            · rw [if_pos hxz]
            · by_cases hzx : z < x
              · rw [if_neg hxz, if_pos hzx] at h2
                exact absurd h2 (by simp)
              · have hxzeq : x = z := by omega
                subst hxzeq
                rw [if_neg (by omega), if_neg (by omega)] at h2
                rw [if_neg (by omega), if_neg (by omega)]
                exact ih h1 h2

theorem strLe_append_left (p a b : Str) : strLe (p ++ a) (p ++ b) = strLe a b := by
  induction p with
  | nil => rfl
  | cons x xs ih => simp [strLe, ih]

theorem mem_insertByKey {α : Type} {key : α → Str} {x a : α} {l : List α} :
    a ∈ insertByKey key x l ↔ a = x ∨ a ∈ l := by
  induction l with
  | nil => simp [insertByKey]
  | cons y ys ih =>
    simp only [insertByKey]
    by_cases h : strLe (key x) (key y) = true
    · rw [if_pos h]
      simp only [List.mem_cons]
    · rw [if_neg h]
      simp only [List.mem_cons, ih]
      tauto

theorem mem_sortByKey {α : Type} {key : α → Str} {a : α} {l : List α} :
    a ∈ sortByKey key l ↔ a ∈ l := by
  induction l with
  | nil => simp [sortByKey]
  | cons y ys ih =>
    simp [sortByKey, mem_insertByKey, ih]

theorem pairwise_insertByKey {α : Type} {key : α → Str} {x : α} {l : List α}
    (h : l.Pairwise (fun a b => strLe (key a) (key b) = true)) :
    (insertByKey key x l).Pairwise (fun a b => strLe (key a) (key b) = true) := by
  induction l with
  | nil => simp [insertByKey]
  | cons y ys ih =>
    rw [List.pairwise_cons] at h
    obtain ⟨hy, hys⟩ := h
    simp only [insertByKey]
    by_cases hc : strLe (key x) (key y) = true
    · rw [if_pos hc]
      rw [List.pairwise_cons]
      constructor
      · intro z hz
        rcases List.mem_cons.mp hz with hz | hz
        · subst hz; exact hc
        · exact strLe_trans hc (hy z hz)
      · rw [List.pairwise_cons]
        exact ⟨hy, hys⟩
    · rw [if_neg hc]
      rw [List.pairwise_cons]
      constructor
      · intro z hz
        rcases mem_insertByKey.mp hz with hz | hz
        · rcases strLe_total (key x) (key y) with h | h
          · exact absurd h hc
          · subst hz
            exact h
        · exact hy z hz
      · exact ih hys

theorem pairwise_sortByKey {α : Type} {key : α → Str} (l : List α) :
    (sortByKey key l).Pairwise (fun a b => strLe (key a) (key b) = true) := by
  induction l with
  | nil => simp [sortByKey]
  | cons y ys ih => exact pairwise_insertByKey ih

theorem map_insertByKey {α : Type} {key : α → Str} (x : α) (l : List α) :
    (insertByKey key x l).map key = insertByKey id (key x) (l.map key) := by
  induction l with
  | nil => rfl
  | cons y ys ih =>
    simp only [insertByKey, List.map_cons, id]
    by_cases h : strLe (key x) (key y) = true
    · rw [if_pos h, if_pos h]
      simp
    · rw [if_neg h, if_neg h]
      simp [ih]

theorem map_sortByKey {α : Type} {key : α → Str} (l : List α) :
    (sortByKey key l).map key = sortStrs (l.map key) := by
  induction l with
  | nil => rfl
  | cons y ys ih =>
    simp only [sortByKey, sortStrs, List.map_cons]
    rw [map_insertByKey, ih]
    rfl

theorem sortStrs_of_pairwise {l : List Str}
    (h : l.Pairwise (fun a b => strLe a b = true)) : sortStrs l = l := by
  induction l with
  | nil => rfl
  | cons y ys ih =>
    rw [List.pairwise_cons] at h
    obtain ⟨hy, hys⟩ := h
    show insertByKey id y (sortByKey id ys) = y :: ys
    have hys2 : sortByKey id ys = ys := ih hys
    rw [hys2]
    cases ys with
    | nil => rfl
    | cons z zs =>
      show (if strLe (id y) (id z) = true then y :: z :: zs else z :: insertByKey id y zs) = y :: z :: zs
      simp only [id_eq]
      rw [if_pos (hy z (by simp))]

/-! Shape lemmas for rendered properties. -/

theorem strLe_cons (x y : Nat) (xs ys : Str) :
    strLe (x :: xs) (y :: ys) =
      if x < y then true else if y < x then false else strLe xs ys := rfl

theorem valueShape_spec {r body : Str} (h : valueShape r = some body) :
    r = body ++ [93] ∧ ∀ b ∈ body, b ≠ 93 := by
  induction r generalizing body with
  | nil => simp [valueShape] at h
  | cons b rest ih =>
    simp only [valueShape] at h
    by_cases hb : b = 93
    · rw [if_pos hb] at h
      by_cases hr : rest = []
      · rw [if_pos hr] at h
        obtain rfl : ([] : Str) = body := Option.some.inj h
        subst hb hr
        exact ⟨rfl, by simp⟩
      · rw [if_neg hr] at h
        cases h
    · rw [if_neg hb] at h
      rcases Option.map_eq_some'.mp h with ⟨body2, hbody2, rfl⟩
      obtain ⟨hr, hnot⟩ := ih hbody2
      refine ⟨by rw [hr]; simp, ?_⟩
      intro c hc
      rcases List.mem_cons.mp hc with rfl | hc
      · exact hb
      · exact hnot c hc

theorem propShape_spec {s id body : Str} (h : propShape s = some (id, body)) :
    s = id ++ 91 :: body ++ [93] ∧ id ≠ [] ∧ (∀ b ∈ id, isUppercaseChar b = true) ∧
      (∀ b ∈ body, b ≠ 93) ∧ identOf s = id := by
  unfold propShape at h
  simp only at h
  by_cases he : (s.takeWhile isUppercaseChar).isEmpty = true
  · rw [if_pos he] at h
    cases h
  · rw [if_neg he] at h
    have hsplit : s.takeWhile isUppercaseChar ++ s.drop (s.takeWhile isUppercaseChar).length = s := by
      have h1 := List.takeWhile_append_dropWhile isUppercaseChar s
      have h2 := List.drop_left (List.takeWhile isUppercaseChar s) (List.dropWhile isUppercaseChar s)
      rw [h1] at h2
      rw [h2]
      exact h1
    cases hd : s.drop (s.takeWhile isUppercaseChar).length with
    | nil =>
      rw [hd] at h
      simp at h
    | cons b rest =>
      rw [hd] at h
      simp only [List.head?_cons, List.tail_cons] at h
      by_cases hb : b = 91
      · rw [if_pos (by rw [hb])] at h
        rcases Option.map_eq_some'.mp h with ⟨body2, hbody2, hpair⟩
        have hid : s.takeWhile isUppercaseChar = id := (Prod.mk.inj hpair).1
        have hbody : body2 = body := (Prod.mk.inj hpair).2
        obtain ⟨hr, hnot⟩ := valueShape_spec hbody2
        subst hb hid hbody
        refine ⟨?_, ?_, ?_, hnot, rfl⟩
        · conv_lhs => rw [← hsplit, hd, hr]
          simp
        · intro hnil
          rw [hnil] at he
          simp at he
        · intro c hc
          exact List.mem_takeWhile_imp hc
      · rw [if_neg (by simp [hb])] at h
        cases h

theorem tokenWF_spec {t : SgfToken} (h : tokenWF t = true) :
    ∃ body, encodeToken t = identOf (encodeToken t) ++ 91 :: body ++ [93] ∧
      identOf (encodeToken t) ≠ [] ∧
      (∀ b ∈ identOf (encodeToken t), isUppercaseChar b = true) ∧
      (∀ b ∈ body, b ≠ 93) ∧
      fromPair (identOf (encodeToken t)) body = some t := by
  unfold tokenWF at h
  cases hp : propShape (encodeToken t) with
  | none => rw [hp] at h; cases h
  | some p =>
    rw [hp] at h
    obtain ⟨id, body⟩ := p
    obtain ⟨hs, hne, hup, hnot, hident⟩ := propShape_spec hp
    refine ⟨body, ?_, ?_, ?_, hnot, ?_⟩
    · rw [hident]; exact hs
    · rw [hident]; exact hne
    · rw [hident]; exact hup
    · rw [hident]
      simpa using h

theorem identOf_shaped {id : Str} (hid : ∀ b ∈ id, isUppercaseChar b = true) (r : Str) :
    identOf (id ++ 91 :: r) = id := by
  unfold identOf
  induction id with
  | nil =>
    rw [List.nil_append, List.takeWhile_cons, if_neg (by decide)]
  | cons a l ih =>
    rw [List.cons_append, List.takeWhile_cons, if_pos (hid a (by simp))]
    rw [ih (fun b hb => hid b (by simp [hb]))]

theorem findIdx91_shaped {id : Str} (hid : ∀ b ∈ id, isUppercaseChar b = true) (r : Str) :
    ∀ i, List.findIdx? (fun b => b = 91) (id ++ 91 :: r) i = some (i + id.length) := by
  induction id with
  | nil =>
    intro i
    rw [List.nil_append, List.findIdx?_cons, if_pos (by simp)]
    simp
  | cons a l ih =>
    intro i
    have ha : a ≤ 90 := by
      have := hid a (by simp)
      simp [isUppercaseChar] at this
      omega
    rw [List.cons_append, List.findIdx?_cons, if_neg (by simp; omega)]
    rw [ih (fun b hb => hid b (by simp [hb])) (i + 1)]
    simp
    omega

theorem bracketPart_shaped {id : Str} (hid : ∀ b ∈ id, isUppercaseChar b = true) (r : Str) :
    bracketPart (id ++ 91 :: r) = 91 :: r := by
  unfold bracketPart
  rw [findIdx91_shaped hid r 0]
  simp only [Option.getD_some, Nat.zero_add]
  exact List.drop_left _ _

theorem takeOffset_shaped {id : Str} (hid : ∀ b ∈ id, isUppercaseChar b = true) (r : Str) :
    (id ++ 91 :: r).take (((id ++ 91 :: r).findIdx? (fun b => b = 91)).getD
      (id ++ 91 :: r).length) = id := by
  rw [findIdx91_shaped hid r 0]
  simp only [Option.getD_some, Nat.zero_add]
  exact List.take_left _ _

theorem isPrefixOf_self_append (a x : Str) : a.isPrefixOf (a ++ x) = true :=
  List.isPrefixOf_iff_prefix.mpr (List.prefix_append a x)

theorem prefix_takeWhile {p : Nat → Bool} {a : Str} :
    ∀ {u : Str}, a <+: u → (∀ b ∈ a, p b = true) → a <+: u.takeWhile p := by
  induction a with
  | nil => intro u _ _; simp
  | cons x l ih =>
    intro u hpre hall
    obtain ⟨t, rfl⟩ := hpre
    rw [List.cons_append, List.takeWhile_cons, if_pos (hall x (by simp))]
    exact List.cons_prefix_cons.mpr
      ⟨rfl, ih (List.prefix_append l t) (fun b hb => hall b (by simp [hb]))⟩

theorem upper_no_cross_run {ids bs idu bu : Str}
    (hids : ∀ b ∈ ids, isUppercaseChar b = true) (hidu : ∀ b ∈ idu, isUppercaseChar b = true)
    (hne : ¬ idu = ids)
    (hle : strLe (ids ++ 91 :: bs) (idu ++ 91 :: bu) = true) :
    ids.isPrefixOf (idu ++ 91 :: bu) = false := by
  cases hcon : ids.isPrefixOf (idu ++ 91 :: bu) with
  | false => rfl
  | true =>
    exfalso
    have hpre := List.isPrefixOf_iff_prefix.mp hcon
    have hpre2 : ids <+: (idu ++ 91 :: bu).takeWhile isUppercaseChar :=
      prefix_takeWhile hpre hids
    have htw : (idu ++ 91 :: bu).takeWhile isUppercaseChar = idu := by
      have := identOf_shaped hidu bu
      unfold identOf at this
      exact this
    rw [htw] at hpre2
    obtain ⟨t, ht⟩ := hpre2
    cases t with
    | nil =>
      rw [List.append_nil] at ht
      exact hne ht.symm
    | cons c rest =>
      have hc : isUppercaseChar c = true := hidu c (by rw [← ht]; simp)
      have hc2 : c ≤ 90 := by
        simp [isUppercaseChar] at hc
        omega
      rw [← ht, List.append_assoc] at hle
      rw [strLe_append_left] at hle
      rw [List.cons_append] at hle
      rw [strLe_cons] at hle
      rw [if_neg (by omega), if_pos (by omega)] at hle
      cases hle

/-! The compaction fold produces the grouped rendering. -/

theorem shaped_decomp {u : Str} (h : (propShape u).isSome = true) :
    ∃ brest, u = identOf u ++ 91 :: brest ∧
      (∀ b ∈ identOf u, isUppercaseChar b = true) ∧ identOf u ≠ [] := by
  rw [Option.isSome_iff_exists] at h
  obtain ⟨⟨id, body⟩, hp⟩ := h
  obtain ⟨hs, hne, hup, _, hident⟩ := propShape_spec hp
  refine ⟨body ++ [93], ?_, ?_, ?_⟩
  · rw [hident, hs]
    simp
  · rw [hident]
    exact hup
  · rw [hident]
    exact hne

theorem fold_run : ∀ (ss : List Str), ∀ (s0 : Str),
    (propShape s0).isSome = true →
    (∀ s ∈ ss, (propShape s).isSome = true) →
    ss.Pairwise (fun a b => strLe a b = true) →
    (∀ u ∈ ss, strLe s0 u = true) →
    ∀ acc : List Str,
      ((ss.foldl nodeFoldStep (some (identOf s0), acc)).2).flatten =
        acc.flatten ++ ((ss.takeWhile (fun x => sameIdent x s0)).map bracketPart).flatten ++
          bodyRender (ss.dropWhile (fun x => sameIdent x s0)) := by
  intro ss
  induction ss with
  | nil =>
    intro s0 _ _ _ _ acc
    simp [bodyRender]
  | cons u ss ih =>
    intro s0 hs0 hsh hsort hle acc
    have hshu : (propShape u).isSome = true := hsh u (by simp)
    obtain ⟨b0, hs0eq, hu0, hn0⟩ := shaped_decomp hs0
    obtain ⟨bu, hueq, huu, hnu⟩ := shaped_decomp hshu
    have hsh2 : ∀ s ∈ ss, (propShape s).isSome = true := fun s hs => hsh s (by simp [hs])
    have hsort2 : ss.Pairwise (fun a b => strLe a b = true) :=
      (List.pairwise_cons.mp hsort).2
    have hu_ss : ∀ x ∈ ss, strLe u x = true := (List.pairwise_cons.mp hsort).1
    have hle2 : ∀ x ∈ ss, strLe s0 x = true := fun x hx => hle x (by simp [hx])
    rw [List.foldl_cons]
    by_cases hsame : sameIdent u s0
    · have hidu_eq : identOf u = identOf s0 := by
        simpa [sameIdent] using hsame
      have hpref : (identOf s0).isPrefixOf u = true := by
        conv_lhs => rw [hueq]
        rw [← hidu_eq]
        exact isPrefixOf_self_append _ _
      have hstep : nodeFoldStep (some (identOf s0), acc) u =
          (some (identOf s0), acc ++ [bracketPart u]) := by
        unfold nodeFoldStep
        dsimp only
        rw [if_pos hpref]
        rfl
      rw [hstep]
      rw [ih s0 hs0 hsh2 hsort2 hle2 (acc ++ [bracketPart u])]
      rw [List.takeWhile_cons, if_pos hsame, List.dropWhile_cons, if_pos hsame]
      simp [List.append_assoc]
    · have hidne : ¬ identOf u = identOf s0 := by
        simpa [sameIdent] using hsame
      have hles0u : strLe s0 u = true := hle u (by simp)
      have hnopref : (identOf s0).isPrefixOf u = false := by
        conv_lhs => rw [hueq]
        exact @upper_no_cross_run (identOf s0) b0 (identOf u) bu hu0 huu hidne
          (by rw [← hs0eq, ← hueq]; exact hles0u)
      have htake : u.take ((u.findIdx? (fun b => b = 91)).getD u.length) = identOf u := by
        conv_lhs => rw [hueq]
        rw [takeOffset_shaped huu bu]
      have hstep : nodeFoldStep (some (identOf s0), acc) u =
          (some (identOf u), acc ++ [u]) := by
        unfold nodeFoldStep
        dsimp only
        rw [if_neg (by simp [hnopref])]
        rw [htake]
      rw [hstep]
      rw [ih u hshu hsh2 hsort2 hu_ss (acc ++ [u])]
      rw [List.takeWhile_cons, if_neg hsame, List.dropWhile_cons, if_neg hsame]
      rw [show bodyRender (u :: ss) =
          u ++ ((ss.takeWhile (fun x => sameIdent x u)).map bracketPart).flatten ++
            bodyRender (ss.dropWhile (fun x => sameIdent x u)) from by rw [bodyRender]]
      simp [List.append_assoc]

theorem fold_all (ss : List Str) (hsh : ∀ s ∈ ss, (propShape s).isSome = true)
    (hsort : ss.Pairwise (fun a b => strLe a b = true)) (acc : List Str) :
    ((ss.foldl nodeFoldStep (none, acc)).2).flatten = acc.flatten ++ bodyRender ss := by
  cases ss with
  | nil => simp [bodyRender]
  | cons s ss =>
    have hshs : (propShape s).isSome = true := hsh s (by simp)
    obtain ⟨bs, hseq, hus, hns⟩ := shaped_decomp hshs
    have htake : s.take ((s.findIdx? (fun b => b = 91)).getD s.length) = identOf s := by
      conv_lhs => rw [hseq]
      rw [takeOffset_shaped hus bs]
    have hstep : nodeFoldStep (none, acc) s = (some (identOf s), acc ++ [s]) := by
      unfold nodeFoldStep
      dsimp only
      rw [htake]
    rw [List.foldl_cons, hstep]
    rw [fold_run ss s hshs (fun x hx => hsh x (by simp [hx]))
      (List.pairwise_cons.mp hsort).2 (List.pairwise_cons.mp hsort).1 (acc ++ [s])]
    rw [show bodyRender (s :: ss) =
        s ++ ((ss.takeWhile (fun x => sameIdent x s)).map bracketPart).flatten ++
          bodyRender (ss.dropWhile (fun x => sameIdent x s)) from by rw [bodyRender]]
    simp [List.append_assoc]

theorem tokenWF_propShape {t : SgfToken} (h : tokenWF t = true) :
    (propShape (encodeToken t)).isSome = true := by
  unfold tokenWF at h
  cases hp : propShape (encodeToken t) with
  | none => rw [hp] at h; cases h
  | some p => simp

theorem nodeWF_strings {n : GameNode} (h : nodeWF n = true) :
    ∀ s ∈ sortStrs (n.tokens.map encodeToken), (propShape s).isSome = true := by
  intro s hs
  have hs2 : s ∈ n.tokens.map encodeToken := mem_sortByKey.mp hs
  obtain ⟨t, ht, rfl⟩ := List.mem_map.mp hs2
  have hWF : tokenWF t = true := by
    unfold nodeWF at h
    exact List.all_eq_true.mp h t ht
  exact tokenWF_propShape hWF

theorem sortStrs_sorted (l : List Str) :
    (sortStrs l).Pairwise (fun a b => strLe a b = true) := by
  have := @pairwise_sortByKey _ id l
  simpa using this

theorem nodeToText_eq {n : GameNode} (h : nodeWF n = true) :
    nodeToText n = 59 :: bodyRender (sortStrs (n.tokens.map encodeToken)) := by
  show ((sortStrs (n.tokens.map encodeToken)).foldl nodeFoldStep (none, [[59]])).2.flatten =
    59 :: bodyRender (sortStrs (n.tokens.map encodeToken))
  rw [fold_all _ (nodeWF_strings h) (sortStrs_sorted _) [[59]]]
  rfl

/-! Parser lemmas: values. -/

theorem shaped_decomp2 {u : Str} (h : (propShape u).isSome = true) :
    u = identOf u ++ 91 :: (bodyOf u ++ [93]) ∧
      (∀ b ∈ identOf u, isUppercaseChar b = true) ∧ identOf u ≠ [] ∧
      (∀ b ∈ bodyOf u, b ≠ 93) ∧ propShape u = some (identOf u, bodyOf u) := by
  rw [Option.isSome_iff_exists] at h
  obtain ⟨⟨id, body⟩, hp⟩ := h
  obtain ⟨hs, hne, hup, hnot, hident⟩ := propShape_spec hp
  have hbody : bodyOf u = body := by
    unfold bodyOf
    rw [hp]
    rfl
  refine ⟨?_, ?_, ?_, ?_, ?_⟩
  · rw [hident, hbody, hs]
    simp
  · rw [hident]
    exact hup
  · rw [hident]
    exact hne
  · rw [hbody]
    exact hnot
  · rw [hident, hbody]
    exact hp

theorem findIdx93_shaped {body : Str} (hb : ∀ b ∈ body, b ≠ 93) (r : Str) :
    ∀ i, List.findIdx? (fun b => b = 93) (body ++ 93 :: r) i = some (i + body.length) := by
  induction body with
  | nil =>
    intro i
    rw [List.nil_append, List.findIdx?_cons, if_pos (by simp)]
    simp
  | cons a l ih =>
    intro i
    have ha : a ≠ 93 := hb a (by simp)
    rw [List.cons_append, List.findIdx?_cons, if_neg (by simp [ha])]
    rw [ih (fun b h2 => hb b (by simp [h2])) (i + 1)]
    simp
    omega

theorem parseValue_shaped {body : Str} (hb : ∀ b ∈ body, b ≠ 93) (rest : Str) :
    parseValue (91 :: (body ++ 93 :: rest)) = .ok (body, rest) := by
  unfold parseValue
  rw [if_pos (by simp)]
  simp only [List.tail_cons]
  rw [findIdx93_shaped hb rest 0]
  simp only [Nat.zero_add]
  have htake : (body ++ 93 :: rest).take body.length = body := List.take_left _ _
  have hdrop : (body ++ 93 :: rest).drop (body.length + 1) = rest := by
    have h2 : body ++ 93 :: rest = (body ++ [93]) ++ rest := by simp
    have h3 : (body ++ [93]).length = body.length + 1 := by simp
    rw [h2, ← h3]
    exact List.drop_left _ _
  rw [htake, hdrop]

theorem bracketPart_eq {s : Str} (h : (propShape s).isSome = true) :
    bracketPart s = 91 :: (bodyOf s ++ [93]) := by
  obtain ⟨hs, hup, hne, hnot, hp⟩ := shaped_decomp2 h
  conv_lhs => rw [hs]
  rw [bracketPart_shaped hup]

theorem parseValuesLoop_run : ∀ (run : List Str) (fuel : Nat) (rest : Str),
    run.length < fuel →
    (∀ s ∈ run, (propShape s).isSome = true) →
    rest.head? ≠ some 91 →
    parseValuesLoop fuel ((run.map bracketPart).flatten ++ rest) =
      .ok (run.map bodyOf, rest) := by
  intro run
  induction run with
  | nil =>
    intro fuel rest hf hsh hne
    cases fuel with
    | zero => omega
    | succ f =>
      simp only [List.map_nil, List.flatten_nil, List.nil_append]
      unfold parseValuesLoop
      rw [if_neg hne]
  | cons s run ih =>
    intro fuel rest hf hsh hne
    cases fuel with
    | zero => simp at hf
    | succ f =>
      have hshs : (propShape s).isSome = true := hsh s (by simp)
      obtain ⟨hs, hup, hnemp, hnot, hp⟩ := shaped_decomp2 hshs
      have hbp : bracketPart s = 91 :: (bodyOf s ++ [93]) := bracketPart_eq hshs
      have hinput : (List.map bracketPart (s :: run)).flatten ++ rest =
          91 :: (bodyOf s ++ 93 :: ((run.map bracketPart).flatten ++ rest)) := by
        rw [List.map_cons, List.flatten_cons, hbp]
        simp
      rw [hinput]
      unfold parseValuesLoop
      rw [if_pos (by simp)]
      simp only [parseValue_shaped hnot]
      rw [ih f rest (by simp at hf; omega) (fun x hx => hsh x (by simp [hx])) hne]
      simp

/-! Parser lemmas: one property consumes one identifier group. -/

theorem alpha_takeWhile_shaped {id : Str} (hid : ∀ b ∈ id, isUppercaseChar b = true) (r : Str) :
    List.takeWhile isAsciiAlpha (id ++ 91 :: r) = id := by
  induction id with
  | nil => rw [List.nil_append, List.takeWhile_cons, if_neg (by decide)]
  | cons a l ih =>
    have ha : isAsciiAlpha a = true := by
      have := hid a (by simp)
      simp [isAsciiAlpha, this]
    rw [List.cons_append, List.takeWhile_cons, if_pos ha,
      ih (fun b hb => hid b (by simp [hb]))]

theorem mapM_fromPair_bodies (idg : Str) : ∀ (l : List Str),
    (∀ s ∈ l, (propShape s).isSome = true ∧ identOf s = idg) →
    (l.map bodyOf).mapM (fun v => fromPair idg v) = l.mapM decodeProp := by
  intro l
  induction l with
  | nil => intro _; rfl
  | cons s t ih =>
    intro h
    obtain ⟨hsh, hid⟩ := h s (by simp)
    obtain ⟨_, _, _, _, hp⟩ := shaped_decomp2 hsh
    simp only [List.map_cons, List.mapM_cons]
    have hd : decodeProp s = fromPair idg (bodyOf s) := by
      unfold decodeProp
      rw [hp, hid]
    rw [hd, ih (fun x hx => h x (by simp [hx]))]

theorem parseProperty_group (g : Str) (run : List Str) (fuel : Nat) (rest : Str)
    (toks : List SgfToken)
    (hf : run.length + 2 ≤ fuel)
    (hg : (propShape g).isSome = true)
    (hrun : ∀ s ∈ run, (propShape s).isSome = true ∧ identOf s = identOf g)
    (hrest : rest.head? ≠ some 91)
    (hdec : (g :: run).mapM decodeProp = some toks) :
    parseProperty fuel (g ++ ((run.map bracketPart).flatten ++ rest)) = .ok (toks, rest) := by
  cases fuel with
  | zero => omega
  | succ f =>
    obtain ⟨hgs, hgup, hgne, hgnot, hgp⟩ := shaped_decomp2 hg
    have hinput : g ++ ((run.map bracketPart).flatten ++ rest) =
        identOf g ++ 91 :: (bodyOf g ++ 93 :: ((run.map bracketPart).flatten ++ rest)) := by
      conv_lhs => rw [hgs]
      simp
    rw [hinput]
    unfold parseProperty
    simp only [alpha_takeWhile_shaped hgup]
    rw [if_neg (by simp [hgne])]
    rw [List.drop_left]
    simp only [parseValue_shaped hgnot]
    rw [parseValuesLoop_run run f rest (by omega) (fun x hx => (hrun x hx).1) hrest]
    have hmm : (bodyOf g :: run.map bodyOf).mapM (fun value => fromPair (identOf g) value) =
        (g :: run).mapM decodeProp := by
      have h2 := mapM_fromPair_bodies (identOf g) (g :: run) (by
        intro x hx
        rcases List.mem_cons.mp hx with rfl | hx
        · exact ⟨hg, rfl⟩
        · exact hrun x hx)
      simpa using h2
    simp only [hmm, hdec]

/-! Parser lemmas: the property loop consumes a rendered node body. -/

theorem mem_of_takeWhile {α : Type} {p : α → Bool} {x : α} :
    ∀ {l : List α}, x ∈ l.takeWhile p → x ∈ l := by
  intro l
  induction l with
  | nil => simp
  | cons a t ih =>
    rw [List.takeWhile_cons]
    by_cases hp : p a = true
    · rw [if_pos hp]
      intro hx
      rcases List.mem_cons.mp hx with rfl | hx
      · simp
      · simp [ih hx]
    · rw [if_neg hp]
      intro hx
      simp at hx

theorem mem_of_dropWhile {α : Type} {p : α → Bool} {x : α} :
    ∀ {l : List α}, x ∈ l.dropWhile p → x ∈ l := by
  intro l
  induction l with
  | nil => simp
  | cons a t ih =>
    rw [List.dropWhile_cons]
    by_cases hp : p a = true
    · rw [if_pos hp]
      intro hx
      simp [ih hx]
    · rw [if_neg hp]
      intro hx
      exact hx

theorem mapM_decode_append {l1 l2 : List Str} :
    ∀ {toks : List SgfToken}, (l1 ++ l2).mapM decodeProp = some toks →
    ∃ t1 t2, l1.mapM decodeProp = some t1 ∧ l2.mapM decodeProp = some t2 ∧ toks = t1 ++ t2 := by
  induction l1 with
  | nil =>
    intro toks h
    exact ⟨[], toks, rfl, h, rfl⟩
  | cons a l ih =>
    intro toks h
    rw [List.cons_append, List.mapM_cons] at h
    cases hda : decodeProp a with
    | none => rw [hda] at h; simp at h
    | some x =>
      rw [hda] at h
      simp only [Option.bind_eq_bind, Option.some_bind] at h
      cases hml : (l ++ l2).mapM decodeProp with
      | none => rw [hml] at h; simp at h
      | some ts =>
        rw [hml] at h
        simp at h
        obtain ⟨t1, t2, h1, h2, h3⟩ := ih hml
        refine ⟨x :: t1, t2, ?_, h2, ?_⟩
        · rw [List.mapM_cons, hda, h1]
          rfl
        · rw [← h, h3]
          rfl

theorem bodyRender_head {ds : List Str} (hsh : ∀ s ∈ ds, (propShape s).isSome = true)
    (hne : ds ≠ []) :
    ∃ a r, bodyRender ds = a :: r ∧ isUppercaseChar a = true := by
  cases ds with
  | nil => exact absurd rfl hne
  | cons s tail =>
    have hshs : (propShape s).isSome = true := hsh s (by simp)
    obtain ⟨hs, hup, hnemp, _, _⟩ := shaped_decomp2 hshs
    cases hid : identOf s with
    | nil => exact absurd hid hnemp
    | cons a id2 =>
      have ha : isUppercaseChar a = true := hup a (by rw [hid]; simp)
      have hs2 : s = a :: (id2 ++ 91 :: (bodyOf s ++ [93])) := by
        conv_lhs => rw [hs]
        rw [hid]
        simp
      have hX : bodyRender (s :: tail) =
          s ++ (((tail.takeWhile (fun x => sameIdent x s)).map bracketPart).flatten ++
            bodyRender (tail.dropWhile (fun x => sameIdent x s))) := by
        rw [bodyRender]
        simp [List.append_assoc]
      generalize hXg : ((tail.takeWhile (fun x => sameIdent x s)).map bracketPart).flatten ++
          bodyRender (tail.dropWhile (fun x => sameIdent x s)) = X at hX
      refine ⟨a, id2 ++ 91 :: (bodyOf s ++ [93]) ++ X, ?_, ha⟩
      rw [hX]
      conv_lhs => rw [hs2]
      simp [List.append_assoc]

theorem parsePropsLoop_body (ss : List Str) : ∀ (fuel : Nat) (rest : Str) (toks : List SgfToken),
    4 * ss.length + 1 ≤ fuel →
    (∀ s ∈ ss, (propShape s).isSome = true) →
    headIsAlpha rest = false →
    rest.head? ≠ some 91 →
    ss.mapM decodeProp = some toks →
    parsePropsLoop fuel (bodyRender ss ++ rest) = .ok (toks, rest) := by
  induction ss using bodyRender.induct with
  | case1 =>
    intro fuel rest toks hf hsh halpha hne hdec
    cases fuel with
    | zero => omega
    | succ f =>
      have htoks : toks = [] := by
        rw [List.mapM_nil] at hdec
        exact (Option.some.inj hdec).symm
      subst htoks
      rw [show bodyRender [] = [] from by rw [bodyRender]]
      rw [List.nil_append]
      unfold parsePropsLoop
      rw [if_neg (by simp [halpha])]
  | case2 s ss ih =>
    intro fuel rest toks hf hsh halpha hne hdec
    cases fuel with
    | zero => omega
    | succ f =>
      have hshs : (propShape s).isSome = true := hsh s (by simp)
      obtain ⟨hs, hup, hnemp, hnot, hp⟩ := shaped_decomp2 hshs
      have hrunsh : ∀ x ∈ ss.takeWhile (fun x => sameIdent x s),
          (propShape x).isSome = true ∧ identOf x = identOf s := by
        intro x hx
        refine ⟨hsh x (by simp [mem_of_takeWhile hx]), ?_⟩
        have := List.mem_takeWhile_imp hx
        simpa [sameIdent] using this
      have hdssh : ∀ x ∈ ss.dropWhile (fun x => sameIdent x s), (propShape x).isSome = true :=
        fun x hx => hsh x (by simp [mem_of_dropWhile hx])
      have hsplit : s :: ss =
          (s :: ss.takeWhile (fun x => sameIdent x s)) ++ ss.dropWhile (fun x => sameIdent x s) := by
        rw [List.cons_append, List.takeWhile_append_dropWhile]
      rw [hsplit] at hdec
      obtain ⟨t1, t2, hdec1, hdec2, htoks⟩ := mapM_decode_append hdec
      have hrest2 : (bodyRender (ss.dropWhile (fun x => sameIdent x s)) ++ rest).head? ≠ some 91 := by
        by_cases hds : ss.dropWhile (fun x => sameIdent x s) = []
        · rw [hds, show bodyRender [] = [] from by rw [bodyRender], List.nil_append]
          exact hne
        · obtain ⟨a, r, hbr, ha⟩ := bodyRender_head hdssh hds
          rw [hbr, List.cons_append, List.head?_cons]
          simp [isUppercaseChar] at ha
          simp
          omega
      have halpha2 : headIsAlpha (bodyRender (ss.dropWhile (fun x => sameIdent x s)) ++ rest) =
          false ∨ ss.dropWhile (fun x => sameIdent x s) ≠ [] := by
        by_cases hds : ss.dropWhile (fun x => sameIdent x s) = []
        · left
          rw [hds, show bodyRender [] = [] from by rw [bodyRender], List.nil_append]
          exact halpha
        · right
          exact hds
      have hinput : bodyRender (s :: ss) ++ rest =
          s ++ (((ss.takeWhile (fun x => sameIdent x s)).map bracketPart).flatten ++
            (bodyRender (ss.dropWhile (fun x => sameIdent x s)) ++ rest)) := by
        rw [show bodyRender (s :: ss) =
            s ++ ((ss.takeWhile (fun x => sameIdent x s)).map bracketPart).flatten ++
              bodyRender (ss.dropWhile (fun x => sameIdent x s)) from by rw [bodyRender]]
        simp [List.append_assoc]
      rw [hinput]
      unfold parsePropsLoop
      have hheadalpha : headIsAlpha (s ++ (((ss.takeWhile (fun x => sameIdent x s)).map
          bracketPart).flatten ++ (bodyRender (ss.dropWhile (fun x => sameIdent x s)) ++ rest))) =
          true := by
        cases hid : identOf s with
        | nil => exact absurd hid hnemp
        | cons a id2 =>
          have ha : isUppercaseChar a = true := hup a (by rw [hid]; simp)
          conv_lhs => rw [hs, hid]
          unfold headIsAlpha
          simp [isAsciiAlpha, ha]
      rw [if_pos hheadalpha]
      have hlen : (ss.takeWhile (fun x => sameIdent x s)).length ≤ ss.length := by
        have h1 := congrArg List.length (List.takeWhile_append_dropWhile
          (fun x => sameIdent x s) ss)
        rw [List.length_append] at h1
        omega
      have hdslen : (ss.dropWhile (fun x => sameIdent x s)).length ≤ ss.length := by
        have h1 := congrArg List.length (List.takeWhile_append_dropWhile
          (fun x => sameIdent x s) ss)
        rw [List.length_append] at h1
        omega
      rw [parseProperty_group s (ss.takeWhile (fun x => sameIdent x s)) f
        (bodyRender (ss.dropWhile (fun x => sameIdent x s)) ++ rest) t1
        (by simp at hf; omega) hshs hrunsh hrest2 hdec1]
      show (match parsePropsLoop f (bodyRender (ss.dropWhile (fun x => sameIdent x s)) ++ rest) with
        | Except.ok (ts2, rest2) => Except.ok (t1 ++ ts2, rest2)
        | Except.error e => Except.error e) = Except.ok (toks, rest)
      rw [ih f rest t2 (by simp at hf; omega) hdssh halpha hne hdec2]
      simp [htoks]

/-! Parser lemmas: nodes and sequences. -/

theorem length_insertByKey {α : Type} (key : α → Str) (x : α) (l : List α) :
    (insertByKey key x l).length = l.length + 1 := by
  induction l with
  | nil => rfl
  | cons y ys ih =>
    simp only [insertByKey]
    by_cases h : strLe (key x) (key y) = true
    · rw [if_pos h]
      simp
    · rw [if_neg h]
      simp [ih]

theorem length_sortByKey {α : Type} (key : α → Str) (l : List α) :
    (sortByKey key l).length = l.length := by
  induction l with
  | nil => rfl
  | cons y ys ih =>
    simp only [sortByKey]
    rw [length_insertByKey, ih]
    rfl

theorem parseNode_succ (f : Nat) (input : Str) :
    parseNode (f + 1) input =
      if input.head? = some 59 then
        match parsePropsLoop f input.tail with
        | Except.ok (ts, rest2) => Except.ok (⟨ts⟩, rest2)
        | Except.error e => Except.error e
      else Except.error SgfErrorKind.ParseError := rfl

theorem parseSequence_succ (f : Nat) (input : Str) :
    parseSequence (f + 1) input =
      match parseNode f input with
      | Except.ok (n, rest) =>
        match parseNodesLoop f rest with
        | Except.ok (ns, rest2) => Except.ok (n :: ns, rest2)
        | Except.error e => Except.error e
      | Except.error e => Except.error e := rfl

theorem tokenWF_decode {t : SgfToken} (h : tokenWF t = true) :
    decodeProp (encodeToken t) = some t := by
  unfold tokenWF at h
  unfold decodeProp
  cases hp : propShape (encodeToken t) with
  | none => rw [hp] at h; cases h
  | some p =>
    rw [hp] at h
    obtain ⟨id, body⟩ := p
    simpa using h

theorem mapM_decode_encode (l : List SgfToken) (h : ∀ t ∈ l, tokenWF t = true) :
    (l.map encodeToken).mapM decodeProp = some l := by
  induction l with
  | nil => rfl
  | cons t ts ih =>
    rw [List.map_cons, List.mapM_cons, tokenWF_decode (h t (by simp)),
      ih (fun x hx => h x (by simp [hx]))]
    rfl

theorem canonNode_strings (n : GameNode) :
    (canonNode n).tokens.map encodeToken = sortStrs (n.tokens.map encodeToken) := by
  unfold canonNode
  exact map_sortByKey _

theorem parseNode_text {n : GameNode} (hWF : nodeWF n = true) (fuel : Nat) (rest : Str)
    (hf : nodeNeed n ≤ fuel)
    (halpha : headIsAlpha rest = false) (hne : rest.head? ≠ some 91) :
    parseNode fuel (nodeToText n ++ rest) = .ok (canonNode n, rest) := by
  cases fuel with
  | zero =>
    unfold nodeNeed at hf
    omega
  | succ f =>
    rw [nodeToText_eq hWF, List.cons_append, parseNode_succ]
    rw [if_pos (by simp)]
    simp only [List.tail_cons]
    have hWFall : ∀ t ∈ (canonNode n).tokens, tokenWF t = true := by
      intro t ht
      unfold canonNode at ht
      have ht2 : t ∈ n.tokens := mem_sortByKey.mp ht
      unfold nodeWF at hWF
      exact List.all_eq_true.mp hWF t ht2
    have hmapm : (sortStrs (n.tokens.map encodeToken)).mapM decodeProp =
        some (canonNode n).tokens := by
      rw [← canonNode_strings n]
      exact mapM_decode_encode _ hWFall
    have hflen : 4 * (sortStrs (n.tokens.map encodeToken)).length + 1 ≤ f := by
      unfold sortStrs
      rw [length_sortByKey]
      rw [List.length_map]
      unfold nodeNeed at hf
      omega
    rw [parsePropsLoop_body (sortStrs (n.tokens.map encodeToken)) f rest (canonNode n).tokens
      hflen (nodeWF_strings hWF) halpha hne hmapm]

theorem parseNodesLoop_text : ∀ (ns : List GameNode), (∀ n ∈ ns, nodeWF n = true) →
    ∀ (fuel : Nat) (rest : Str), nodesNeed ns ≤ fuel →
    (rest.head? = some 40 ∨ rest.head? = some 41) →
    parseNodesLoop fuel ((ns.map nodeToText).flatten ++ rest) = .ok (ns.map canonNode, rest) := by
  intro ns
  induction ns with
  | nil =>
    intro _ fuel rest hf hrest
    cases fuel with
    | zero => unfold nodesNeed at hf; omega
    | succ f =>
      simp only [List.map_nil, List.flatten_nil, List.nil_append]
      unfold parseNodesLoop
      rw [if_neg (by rcases hrest with h | h <;> simp [h])]
  | cons n ns ih =>
    intro hWF fuel rest hf hrest
    cases fuel with
    | zero => unfold nodesNeed at hf; omega
    | succ f =>
      have hWFn : nodeWF n = true := hWF n (by simp)
      have hrest2 : headIsAlpha ((ns.map nodeToText).flatten ++ rest) = false ∧
          ((ns.map nodeToText).flatten ++ rest).head? ≠ some 91 ∧
          (((ns.map nodeToText).flatten ++ rest).head? = some 59 ∨
            ((ns.map nodeToText).flatten ++ rest).head? = rest.head?) := by
        cases ns with
        | nil =>
          simp only [List.map_nil, List.flatten_nil, List.nil_append]
          rcases hrest with h | h <;> simp [h, headIsAlpha] <;> decide
        | cons n2 ns2 =>
          have hWFn2 : nodeWF n2 = true := hWF n2 (by simp)
          rw [List.map_cons, List.flatten_cons, nodeToText_eq hWFn2]
          simp [headIsAlpha, isAsciiAlpha, isUppercaseChar, isLowerAlpha]
      have hinput : nodeToText n ++ ((ns.map nodeToText).flatten ++ rest) =
          (List.map nodeToText (n :: ns)).flatten ++ rest := by
        simp [List.append_assoc]
      have hhead : ((List.map nodeToText (n :: ns)).flatten ++ rest).head? = some 59 := by
        rw [← hinput, nodeToText_eq hWFn, List.cons_append, List.head?_cons]
      unfold parseNodesLoop
      rw [if_pos hhead]
      rw [← hinput]
      rw [parseNode_text hWFn f ((ns.map nodeToText).flatten ++ rest)
        (by unfold nodesNeed at hf; omega) hrest2.1 hrest2.2.1]
      show (match parseNodesLoop f ((ns.map nodeToText).flatten ++ rest) with
        | Except.ok (ns2, rest2) => Except.ok (canonNode n :: ns2, rest2)
        | Except.error e => Except.error e) = _
      rw [ih (fun x hx => hWF x (by simp [hx])) f rest (by unfold nodesNeed at hf; omega) hrest]
      rfl

theorem parseSequence_text {ns : List GameNode} (hne : ns ≠ [])
    (hWF : ∀ n ∈ ns, nodeWF n = true) (fuel : Nat) (rest : Str)
    (hf : nodesNeed ns ≤ fuel)
    (hrest : rest.head? = some 40 ∨ rest.head? = some 41) :
    parseSequence fuel ((ns.map nodeToText).flatten ++ rest) = .ok (ns.map canonNode, rest) := by
  cases ns with
  | nil => exact absurd rfl hne
  | cons n ns =>
    cases fuel with
    | zero => unfold nodesNeed at hf; omega
    | succ f =>
      have hWFn : nodeWF n = true := hWF n (by simp)
      have hrest2 : headIsAlpha ((ns.map nodeToText).flatten ++ rest) = false ∧
          ((ns.map nodeToText).flatten ++ rest).head? ≠ some 91 := by
        cases ns with
        | nil =>
          simp only [List.map_nil, List.flatten_nil, List.nil_append]
          rcases hrest with h | h <;> simp [h, headIsAlpha] <;> decide
        | cons n2 ns2 =>
          have hWFn2 : nodeWF n2 = true := hWF n2 (by simp)
          rw [List.map_cons, List.flatten_cons, nodeToText_eq hWFn2]
          simp [headIsAlpha, isAsciiAlpha, isUppercaseChar, isLowerAlpha]
      have hinput : (List.map nodeToText (n :: ns)).flatten ++ rest =
          nodeToText n ++ ((ns.map nodeToText).flatten ++ rest) := by
        simp [List.append_assoc]
      rw [hinput, parseSequence_succ]
      rw [parseNode_text hWFn f ((ns.map nodeToText).flatten ++ rest)
        (by unfold nodesNeed at hf; omega) hrest2.1 hrest2.2]
      show (match parseNodesLoop f ((ns.map nodeToText).flatten ++ rest) with
        | Except.ok (ns2, rest2) => Except.ok (canonNode n :: ns2, rest2)
        | Except.error e => Except.error e) = _
      rw [parseNodesLoop_text ns (fun x hx => hWF x (by simp [hx])) f rest
        (by unfold nodesNeed at hf; omega) hrest]
      rfl

/-! Step equations of the mutual tree functions. -/

theorem treeToText_mk (ns : List GameNode) (vs : List GameTree) :
    treeToText (.mk ns vs) =
      (40 :: (ns.map nodeToText).flatten) ++ treesToText vs ++ [41] := rfl

theorem treesToText_nil : treesToText [] = [] := rfl

theorem treesToText_cons (t : GameTree) (ts : List GameTree) :
    treesToText (t :: ts) = treeToText t ++ treesToText ts := rfl

theorem treeNeed_mk (ns : List GameNode) (vs : List GameTree) :
    treeNeed (.mk ns vs) = nodesNeed ns + treesNeed vs + 4 := rfl

theorem treesNeed_nil : treesNeed [] = 1 := rfl

theorem treesNeed_cons (t : GameTree) (ts : List GameTree) :
    treesNeed (t :: ts) = treeNeed t + treesNeed ts + 1 := rfl

theorem treeWF_mk (ns : List GameNode) (vs : List GameTree) :
    treeWF (.mk ns vs) = (!ns.isEmpty && ns.all nodeWF && treesWF vs) := rfl

theorem treesWF_cons (t : GameTree) (ts : List GameTree) :
    treesWF (t :: ts) = (treeWF t && treesWF ts) := rfl

theorem canonTree_mk (ns : List GameNode) (vs : List GameTree) :
    canonTree (.mk ns vs) = .mk (ns.map canonNode) (canonTrees vs) := rfl

theorem canonTrees_nil : canonTrees [] = [] := rfl

theorem canonTrees_cons (t : GameTree) (ts : List GameTree) :
    canonTrees (t :: ts) = canonTree t :: canonTrees ts := rfl

theorem parseTreesLoop_succ (f : Nat) (input : Str) :
    parseTreesLoop (f + 1) input =
      if input.head? = some 40 then
        match parseGameTree f input with
        | Except.ok (t, rest) =>
          match parseTreesLoop f rest with
          | Except.ok (ts, rest2) => Except.ok (t :: ts, rest2)
          | Except.error e => Except.error e
        | Except.error e => Except.error e
      else Except.ok ([], input) := rfl

theorem parseGameTree_succ (f : Nat) (input : Str) :
    parseGameTree (f + 1) input =
      if input.head? = some 40 then
        match parseSequence f input.tail with
        | Except.ok (ns, rest2) =>
          match parseTreesLoop f rest2 with
          | Except.ok (ts, rest3) =>
            if rest3.head? = some 41 then Except.ok (.mk ns ts, rest3.tail)
            else Except.error SgfErrorKind.ParseError
          | Except.error e => Except.error e
        | Except.error e => Except.error e
      else Except.error SgfErrorKind.ParseError := rfl

/-! Length bounds: the rendering of a well-formed tree is long enough that
the fuel chosen by parse covers its parsing. -/

theorem len_flatten_ge : ∀ (l : List Str), (∀ x ∈ l, 1 ≤ x.length) →
    l.length ≤ l.flatten.length := by
  intro l
  induction l with
  | nil => simp
  | cons a l2 ih =>
    intro h
    rw [List.flatten_cons, List.length_append, List.length_cons]
    have h1 := h a (by simp)
    have h2 := ih (fun x hx => h x (by simp [hx]))
    omega

theorem bodyRender_len : ∀ (ss : List Str), (∀ s ∈ ss, (propShape s).isSome = true) →
    ss.length ≤ (bodyRender ss).length := by
  intro ss
  induction ss using bodyRender.induct with
  | case1 =>
    intro _
    simp
  | case2 s ss ih =>
    intro hsh
    rw [bodyRender, List.append_assoc, List.length_append, List.length_append]
    have hs1 : 1 ≤ s.length := by
      cases s with
      | nil => exact absurd (hsh [] (by simp)) (by decide)
      | cons a r => simp
    have hflat : (ss.takeWhile (fun x => sameIdent x s)).length ≤
        (((ss.takeWhile (fun x => sameIdent x s)).map bracketPart).flatten).length := by
      have h1 : ∀ x ∈ (ss.takeWhile (fun x => sameIdent x s)).map bracketPart,
          1 ≤ x.length := by
        intro x hx
        obtain ⟨y, hy, rfl⟩ := List.mem_map.mp hx
        rw [bracketPart_eq (hsh y (by simp [mem_of_takeWhile hy]))]
        simp
      have h2 := len_flatten_ge _ h1
      rw [List.length_map] at h2
      exact h2
    have hdrop := ih (fun x hx => hsh x (by simp [mem_of_dropWhile hx]))
    have hsplit : (ss.takeWhile (fun x => sameIdent x s)).length +
        (ss.dropWhile (fun x => sameIdent x s)).length = ss.length := by
      rw [← List.length_append, List.takeWhile_append_dropWhile]
    rw [List.length_cons]
    omega

theorem nodeToText_len {n : GameNode} (h : nodeWF n = true) :
    n.tokens.length + 1 ≤ (nodeToText n).length := by
  rw [nodeToText_eq h, List.length_cons]
  have h1 := bodyRender_len _ (nodeWF_strings h)
  have h2 : (sortStrs (n.tokens.map encodeToken)).length = n.tokens.length := by
    unfold sortStrs
    rw [length_sortByKey, List.length_map]
  omega

theorem nodesNeed_le {ns : List GameNode} (h : ∀ n ∈ ns, nodeWF n = true) :
    nodesNeed ns ≤ 16 * ((ns.map nodeToText).flatten).length + 1 := by
  induction ns with
  | nil => simp [nodesNeed]
  | cons n ns ih =>
    rw [List.map_cons, List.flatten_cons, List.length_append]
    have h1 := nodeToText_len (h n (by simp))
    have h2 := ih (fun x hx => h x (by simp [hx]))
    unfold nodesNeed nodeNeed
    omega

mutual

theorem treeNeed_le : ∀ t : GameTree, treeWF t = true →
    treeNeed t + 2 ≤ 16 * (treeToText t).length
  | .mk ns vs, h => by
    rw [treeWF_mk] at h
    simp only [Bool.and_eq_true] at h
    obtain ⟨⟨hne, hall⟩, hvs⟩ := h
    have h1 : nodesNeed ns ≤ 16 * ((ns.map nodeToText).flatten).length + 1 :=
      nodesNeed_le (fun x hx => List.all_eq_true.mp hall x hx)
    have h2 := treesNeed_le vs hvs
    rw [treeNeed_mk, treeToText_mk, List.length_append, List.length_append,
      List.length_cons]
    simp only [List.length_singleton]
    omega

theorem treesNeed_le : ∀ ts : List GameTree, treesWF ts = true →
    treesNeed ts ≤ 16 * (treesToText ts).length + 1
  | [], _ => by
    rw [treesNeed_nil, treesToText_nil]
    simp
  | t :: ts, h => by
    rw [treesWF_cons] at h
    simp only [Bool.and_eq_true] at h
    obtain ⟨h1, h2⟩ := h
    have ha := treeNeed_le t h1
    have hb := treesNeed_le ts h2
    rw [treesNeed_cons, treesToText_cons, List.length_append]
    omega

end

/-! The canonical form renders to the same text. -/

theorem nodeToText_canon (n : GameNode) : nodeToText (canonNode n) = nodeToText n := by
  show ((sortStrs ((canonNode n).tokens.map encodeToken)).foldl nodeFoldStep
      ((none : Option Str), [[59]])).2.flatten =
    ((sortStrs (n.tokens.map encodeToken)).foldl nodeFoldStep
      ((none : Option Str), [[59]])).2.flatten
  have h : sortStrs ((canonNode n).tokens.map encodeToken) =
      sortStrs (n.tokens.map encodeToken) := by
    rw [canonNode_strings]
    exact sortStrs_of_pairwise (sortStrs_sorted _)
  rw [h]

mutual

theorem treeToText_canon : ∀ t : GameTree, treeToText (canonTree t) = treeToText t
  | .mk ns vs => by
    rw [canonTree_mk, treeToText_mk, treeToText_mk, treesToText_canon vs]
    have h : (ns.map canonNode).map nodeToText = ns.map nodeToText := by
      rw [List.map_map]
      exact List.map_congr_left (fun x _ => nodeToText_canon x)
    rw [h]

theorem treesToText_canon : ∀ ts : List GameTree, treesToText (canonTrees ts) = treesToText ts
  | [] => rfl
  | t :: ts => by
    rw [canonTrees_cons, treesToText_cons, treesToText_cons, treeToText_canon t,
      treesToText_canon ts]

end

/-! The parser recovers the canonical tree from a rendered tree. -/

mutual

theorem parseGameTree_text : ∀ t : GameTree, treeWF t = true →
    ∀ (fuel : Nat) (rest : Str), treeNeed t ≤ fuel →
    parseGameTree fuel (treeToText t ++ rest) = .ok (canonTree t, rest)
  | .mk ns vs, h, fuel, rest, hf => by
    rw [treeWF_mk] at h
    simp only [Bool.and_eq_true] at h
    obtain ⟨⟨hne, hall⟩, hvs⟩ := h
    cases fuel with
    | zero => rw [treeNeed_mk] at hf; omega
    | succ f =>
      have hne2 : ns ≠ [] := by
        cases ns with
        | nil => simp at hne
        | cons a l => simp
      have hallWF : ∀ x ∈ ns, nodeWF x = true := fun x hx => List.all_eq_true.mp hall x hx
      have hinput : treeToText (.mk ns vs) ++ rest =
          40 :: ((ns.map nodeToText).flatten ++ (treesToText vs ++ (41 :: rest))) := by
        rw [treeToText_mk]
        simp [List.append_assoc]
      rw [hinput, parseGameTree_succ]
      rw [if_pos (by simp)]
      simp only [List.tail_cons]
      have hseqrest : (treesToText vs ++ (41 :: rest)).head? = some 40 ∨
          (treesToText vs ++ (41 :: rest)).head? = some 41 := by
        cases vs with
        | nil =>
          right
          rw [treesToText_nil, List.nil_append, List.head?_cons]
        | cons v vs2 =>
          left
          cases v with
          | mk ns2 vs3 =>
            rw [treesToText_cons, treeToText_mk]
            simp
      rw [parseSequence_text hne2 hallWF f (treesToText vs ++ (41 :: rest))
        (by rw [treeNeed_mk] at hf; omega) hseqrest]
      show (match parseTreesLoop f (treesToText vs ++ (41 :: rest)) with
        | Except.ok (ts, rest3) =>
          if rest3.head? = some 41 then
            Except.ok (GameTree.mk (ns.map canonNode) ts, rest3.tail)
          else Except.error SgfErrorKind.ParseError
        | Except.error e => Except.error e) = Except.ok (canonTree (GameTree.mk ns vs), rest)
      rw [parseTreesLoop_text vs hvs f (41 :: rest)
        (by rw [treeNeed_mk] at hf; omega) (by rw [List.head?_cons])]
      show (if (41 :: rest).head? = some 41 then
          Except.ok (GameTree.mk (ns.map canonNode) (canonTrees vs), (41 :: rest).tail)
        else Except.error SgfErrorKind.ParseError) = Except.ok (canonTree (GameTree.mk ns vs), rest)
      rw [if_pos (by rw [List.head?_cons]), canonTree_mk, List.tail_cons]

theorem parseTreesLoop_text : ∀ ts : List GameTree, treesWF ts = true →
    ∀ (fuel : Nat) (rest : Str), treesNeed ts ≤ fuel → rest.head? = some 41 →
    parseTreesLoop fuel (treesToText ts ++ rest) = .ok (canonTrees ts, rest)
  | [], _, fuel, rest, hf, hrest => by
    cases fuel with
    | zero => rw [treesNeed_nil] at hf; omega
    | succ f =>
      rw [treesToText_nil, List.nil_append, parseTreesLoop_succ]
      rw [if_neg (by simp [hrest]), canonTrees_nil]
  | t :: ts, h, fuel, rest, hf, hrest => by
    rw [treesWF_cons] at h
    simp only [Bool.and_eq_true] at h
    obtain ⟨h1, h2⟩ := h
    cases fuel with
    | zero => rw [treesNeed_cons] at hf; omega
    | succ f =>
      rw [treesToText_cons, List.append_assoc, parseTreesLoop_succ]
      have hhead : (treeToText t ++ (treesToText ts ++ rest)).head? = some 40 := by
        cases t with
        | mk ns vs =>
          rw [treeToText_mk]
          simp
      rw [if_pos hhead]
      rw [parseGameTree_text t h1 f (treesToText ts ++ rest)
        (by rw [treesNeed_cons] at hf; omega)]
      show (match parseTreesLoop f (treesToText ts ++ rest) with
        | Except.ok (ts2, rest2) => Except.ok (canonTree t :: ts2, rest2)
        | Except.error e => Except.error e) = Except.ok (canonTrees (t :: ts), rest)
      rw [parseTreesLoop_text ts h2 f rest
        (by rw [treesNeed_cons] at hf; omega) hrest]
      rw [canonTrees_cons]

end

/-! Claim theorems. -/

/-- C2, counterexample: in the token.rs codec nothing is skipped.  The
number 9 encodes to the letter i in both coordinates, the letter i decodes
to 9, the letter j decodes to 10 rather than 9, and the model.rs decoder
(which does skip) composed with the token.rs encoder sends the letter j to
the letter i, so the skip is not applied symmetrically. -/
theorem C2_counterexample :
    coordinate_to_str (9, 9) = litBytes "ii" ∧
    convert_u8_to_coordinate 105 = 9 ∧
    convert_u8_to_coordinate 106 = 10 ∧
    model_convert_u8_to_coordinate 106 = 9 ∧
    coordinate_to_str (model_convert_u8_to_coordinate 106, model_convert_u8_to_coordinate 106) =
      litBytes "ii" := by decide

/-- C2, amended: the token.rs conversion applies no skip in either
direction, mapping every lowercase letter c (including i) to c - 96 and
back, so encode after decode is the identity on all letters; the value 9
is skipped only by the model.rs decode direction, with no symmetric
encoder. -/
theorem C2_amended (c : Nat) (h1 : 97 ≤ c) (h2 : c ≤ 122) :
    coordinate_to_str (convert_u8_to_coordinate c, convert_u8_to_coordinate c) = [c, c] ∧
    convert_u8_to_coordinate c = c - 96 ∧
    model_convert_u8_to_coordinate c = if 9 ≤ c - 96 then c - 97 else c - 96 := by
  interval_cases c <;> decide

/-- C2 amended, witness at the letter j. -/
theorem C2_amended_witness :
    coordinate_to_str (convert_u8_to_coordinate 106, convert_u8_to_coordinate 106) = [106, 106] ∧
    convert_u8_to_coordinate 106 = 106 - 96 ∧
    model_convert_u8_to_coordinate 106 = if 9 ≤ 106 - 96 then 106 - 97 else 106 - 96 :=
  C2_amended 106 (by decide) (by decide)

/-- C3: from_pair panics on the recognized identifier LB with the value
made of a Euro sign followed by the letter a (UTF-8 bytes 226 130 172 97,
byte length 4): split_at(2) falls inside the three-byte character, which
is not a char boundary, so the code panics where its documentation and the
claim require SgfToken::Invalid.  An unrecognized identifier still yields
Unknown for the same value. -/
theorem C3_frompair_lb_panics :
    fromPair (litBytes "LB") [226, 130, 172, 97] = none ∧
    ([226, 130, 172, 97] : Str).length = 4 ∧
    isCharBoundary [226, 130, 172, 97] 2 = false ∧
    fromPair (litBytes "XX") [226, 130, 172, 97] =
      some (.Unknown (litBytes "XX", [226, 130, 172, 97])) := by decide

theorem parse_outcome_toOption (v : Str) :
    (parse_outcome_str v).toOption = resultSpecDecode v := by
  unfold parse_outcome_str resultSpecDecode
  by_cases h1 : v = []
  · simp [h1, Except.toOption]
  by_cases h2 : v = litBytes "Void"
  · simp [h1, h2, Except.toOption]
  by_cases h3 : v = litBytes "Draw"
  · simp only [h3]
    decide
  by_cases h4 : v = litBytes "D"
  · simp only [h4]
    decide
  cases hsp : v.splitOn 43 with
  | nil => simp [h1, h2, h3, h4, hsp, Except.toOption]
  | cons l tail =>
    cases tail with
    | nil => simp [h1, h2, h3, h4, hsp, Except.toOption]
    | cons r tail2 =>
      cases tail2 with
      | cons x tail3 => simp [h1, h2, h3, h4, hsp, Except.toOption]
      | nil =>
        by_cases hlB : l = litBytes "B"
        · simp only [h1, h2, h3, h4, hsp, hlB]
          simp
          split_ifs <;> simp [Except.toOption]
        by_cases hlW : l = litBytes "W"
        · simp only [h1, h2, h3, h4, hsp, hlW]
          simp [hlB]
          split_ifs <;> simp [Except.toOption]
        · simp [h1, h2, h3, h4, hsp, hlB, hlW, Except.toOption]

/-- C4: Result decoding follows exactly the claimed case analysis, stated
as an equivalence with a mirror of the spec sentence: empty or Void is a
failure (Invalid at the token level), Draw or D is Draw, otherwise the
value splits on the plus sign into exactly two parts whose left part must
be B or W and whose right part is one of the named codes or else a
floating-point score. -/
theorem C4_result_decoding (v : Str) :
    (parse_outcome_str v).toOption = resultSpecDecode v ∧
    fromPair (litBytes "RE") v =
      some (match resultSpecDecode v with
        | some o => SgfToken.Result o
        | none => SgfToken.Invalid (litBytes "RE", v)) := by
  refine ⟨parse_outcome_toOption v, ?_⟩
  cases hp : parse_outcome_str v with
  | ok o =>
    have hso : resultSpecDecode v = some o := by
      rw [← parse_outcome_toOption v, hp]
      rfl
    rw [fromPair_RE_ok v o hp, hso]
  | error e =>
    have hso : resultSpecDecode v = none := by
      rw [← parse_outcome_toOption v, hp]
      rfl
    rw [fromPair_RE_err v e hp, hso]

/-- C5: a serialized node always begins with a semicolon, and the node
holding two add-black-stone tokens at different coordinates around one
unrelated token renders as a single compacted AB run followed by the other
property. -/
theorem C5_node_serialization :
    (∀ n : GameNode, (nodeToText n).head? = some 59) ∧
    nodeToText ⟨[.Add .Black (1, 1), .PlayerName .White (litBytes "white"), .Add .Black (2, 2)]⟩ =
      litBytes ";AB[aa][bb]PW[white]" :=
  ⟨nodeToText_starts_semicolon, by decide⟩

/-- C6: parsing an input with no game-tree at all yields the default empty
game tree, whose node list and variation list are both empty. -/
theorem C6_no_gametree_default :
    parse [] = .ok defaultGameTree ∧ defaultGameTree = .mk [] [] :=
  ⟨rfl, rfl⟩

/-- C7: for the move identifiers B and W, an empty value decodes to a Pass
move of the matching color, a value that decodes as a coordinate yields a
Move action at that coordinate, and any other value yields Invalid. -/
theorem C7_move_tokens (v : Str) :
    (fromPair (litBytes "B") [] = some (.Move .Black .Pass) ∧
      fromPair (litBytes "W") [] = some (.Move .White .Pass)) ∧
    (∀ x y, v ≠ [] → str_to_coordinates v = .ok (x, y) →
      fromPair (litBytes "B") v = some (.Move .Black (.Move x y)) ∧
      fromPair (litBytes "W") v = some (.Move .White (.Move x y))) ∧
    (∀ e, v ≠ [] → str_to_coordinates v = .error e →
      fromPair (litBytes "B") v = some (.Invalid (litBytes "B", v)) ∧
      fromPair (litBytes "W") v = some (.Invalid (litBytes "W", v))) := by
  refine ⟨by decide, ?_, ?_⟩
  · intro x y hne hok
    have hm : move_str_to_coord v = .ok (.Move x y) := by
      unfold move_str_to_coord
      rw [if_neg (by simp [hne]), hok]
    exact ⟨fromPair_B_ok v _ hm, fromPair_W_ok v _ hm⟩
  · intro e hne herr
    have hm : move_str_to_coord v = .error e := by
      unfold move_str_to_coord
      rw [if_neg (by simp [hne]), herr]
    exact ⟨fromPair_B_err v e hm, fromPair_W_err v e hm⟩

/-- C7 witness at the values aa and x. -/
theorem C7_move_tokens_witness :
    (fromPair (litBytes "B") (litBytes "aa") = some (.Move .Black (.Move 1 1)) ∧
      fromPair (litBytes "W") (litBytes "aa") = some (.Move .White (.Move 1 1))) ∧
    (fromPair (litBytes "B") (litBytes "x") = some (.Invalid (litBytes "B", litBytes "x")) ∧
      fromPair (litBytes "W") (litBytes "x") = some (.Invalid (litBytes "W", litBytes "x"))) :=
  ⟨(C7_move_tokens (litBytes "aa")).2.1 1 1 (by decide) (by decide),
    (C7_move_tokens (litBytes "x")).2.2 .ParseError (by decide) (by decide)⟩

/-- C8: identifier normalization strips every non-uppercase character
before dispatch, so CopyRight and CR decode every value to the same
token. -/
theorem C8_identifier_case (v : Str) :
    fromPair (litBytes "CopyRight") v = fromPair (litBytes "CR") v := rfl

/-- C9: pick_variation with an index that is not below the variation count
of the tree currently traversed fails and leaves the whole iterator state
unchanged; with an index in range it succeeds and stores the index, and
the stored index is the variation entered when the node chain is
exhausted. -/
theorem C9_pick_variation (it : GameTreeIterator) (v : Nat) :
    (v < it.tree.variations.length →
      pick_variation it v = (.ok (), ⟨it.tree, it.index, v⟩)) ∧
    (¬ v < it.tree.variations.length → pick_variation it v = (.error (), it)) ∧
    (it.tree.nodes.get? it.index = none →
      ∀ sub, it.tree.variations.get? it.variation = some sub →
        GameTreeIterator.next it = GameTreeIterator.next ⟨sub, 0, 0⟩) := by
  refine ⟨?_, ?_, ?_⟩
  · intro h
    unfold pick_variation
    rw [if_pos h]
  · intro h
    unfold pick_variation
    rw [if_neg h]
  · intro hend sub hsub
    have hne : it.tree.variations.isEmpty = false := by
      cases hv : it.tree.variations with
      | nil => rw [hv] at hsub; simp at hsub
      | cons a l => simp
    conv_lhs => rw [GameTreeIterator.next]
    rw [hend, hne, hsub]
    simp

/-- C9 witness: one in-range pick, one out-of-range pick, and one descent
through the stored variation index on an exhausted chain. -/
theorem C9_pick_variation_witness :
    pick_variation (GameTreeIterator.new (.mk [⟨[]⟩] [defaultGameTree])) 0 =
      (.ok (), ⟨.mk [⟨[]⟩] [defaultGameTree], 0, 0⟩) ∧
    pick_variation (GameTreeIterator.new (.mk [⟨[]⟩] [defaultGameTree])) 3 =
      (.error (), GameTreeIterator.new (.mk [⟨[]⟩] [defaultGameTree])) ∧
    GameTreeIterator.next ⟨.mk [] [defaultGameTree], 0, 0⟩ =
      GameTreeIterator.next ⟨defaultGameTree, 0, 0⟩ :=
  ⟨(C9_pick_variation (GameTreeIterator.new (.mk [⟨[]⟩] [defaultGameTree])) 0).1 (by decide),
    (C9_pick_variation (GameTreeIterator.new (.mk [⟨[]⟩] [defaultGameTree])) 3).2.1 (by decide),
    (C9_pick_variation ⟨.mk [] [defaultGameTree], 0, 0⟩ 0).2.2 (by decide)
      defaultGameTree (by decide)⟩

/-- C10: the two-character check of coordinate decoding counts UTF-8
bytes.  Every value of exactly two bytes decodes under the identifier B to
a Move token built from those bytes (the two-byte letter e-acute included,
giving the out-of-range coordinate pair 99 and 73), while every nonempty
value of any other byte length yields Invalid. -/
theorem C10_byte_length_coordinates (v : Str) :
    (v.length = 2 → ∃ x y, fromPair (litBytes "B") v = some (.Move .Black (.Move x y))) ∧
    (v ≠ [] → v.length ≠ 2 → fromPair (litBytes "B") v = some (.Invalid (litBytes "B", v))) ∧
    fromPair (litBytes "B") [195, 169] = some (.Move .Black (.Move 99 73)) := by
  refine ⟨?_, ?_, by decide⟩
  · intro h
    match v, h with
    | [a, b], _ => exact ⟨_, _, rfl⟩
  · intro hne hlen
    have hm : move_str_to_coord v = .error .ParseError := by
      unfold move_str_to_coord str_to_coordinates
      rw [if_neg (by simp [hne]), if_pos hlen]
    exact fromPair_B_err v .ParseError hm

/-- C10 witness at a digit pair and a three-byte value. -/
theorem C10_byte_length_coordinates_witness :
    (∃ x y, fromPair (litBytes "B") (litBytes "55") = some (.Move .Black (.Move x y))) ∧
    fromPair (litBytes "B") (litBytes "abc") = some (.Invalid (litBytes "B", litBytes "abc")) :=
  ⟨(C10_byte_length_coordinates (litBytes "55")).1 (by decide),
    (C10_byte_length_coordinates (litBytes "abc")).2.1 (by decide) (by decide)⟩

/-- C1, counterexample: a tree whose single token is Game (Other 1) — a
token that is neither Unknown nor Invalid — renders to (;GM[1]), which
parses back to Game Go, a different tree, because the codec decodes the
game number 1 to the Go variant; and the default empty tree renders to (),
which the grammar rejects (a sequence needs at least one node), so its
parse errors instead of returning the tree.  The round-trip law therefore
does not hold for all trees free of Unknown and Invalid tokens. -/
theorem C1_counterexample :
    (∀ p : Str × Str, SgfToken.Game (.Other 1) ≠ .Unknown p ∧
      SgfToken.Game (.Other 1) ≠ .Invalid p) ∧
    parse (treeToText (.mk [⟨[.Game (.Other 1)]⟩] [])) =
      .ok (.mk [⟨[.Game .Go]⟩] []) ∧
    (GameTree.mk [⟨[.Game .Go]⟩] [] : GameTree) ≠ .mk [⟨[.Game (.Other 1)]⟩] [] ∧
    parse (treeToText defaultGameTree) = .error .ParseError := by
  refine ⟨fun p => ⟨by simp, by simp⟩, by decide, by decide, by decide⟩

/-- C1, amended: for every tree whose sequences are all nonempty and whose
tokens are all codec-faithful (rendering to a well-shaped property whose
decode returns the token itself), parsing the serializer output yields
exactly the canonical tree — the original with every node's token list in
canonical sorted order — and serializing the canonical tree reproduces the
same text, so serialization is a fixed point from the first
canonicalization onward. -/
theorem C1_amended (t : GameTree) (h : treeWF t = true) :
    parse (treeToText t) = .ok (canonTree t) ∧
      treeToText (canonTree t) = treeToText t := by
  constructor
  · unfold parse
    have hne : (treeToText t).isEmpty = false := by
      cases t with
      | mk ns vs =>
        rw [treeToText_mk]
        simp
    rw [if_neg (by simp [hne])]
    have hfuel : treeNeed t ≤ 16 * (treeToText t).length + 16 := by
      have := treeNeed_le t h
      omega
    have hp := parseGameTree_text t h (16 * (treeToText t).length + 16) [] hfuel
    rw [List.append_nil] at hp
    rw [hp]
  · exact treeToText_canon t

/-- C1, witness: the amended round trip at a concrete well-formed tree
holding two player names given in unsorted order plus one variation. -/
theorem C1_amended_witness :
    treeWF (.mk [⟨[.PlayerName .White (litBytes "w"), .PlayerName .Black (litBytes "b")]⟩]
      [.mk [⟨[.Move .Black (.Move 1 1)]⟩] []]) = true ∧
    (parse (treeToText (.mk
        [⟨[.PlayerName .White (litBytes "w"), .PlayerName .Black (litBytes "b")]⟩]
        [.mk [⟨[.Move .Black (.Move 1 1)]⟩] []])) =
      .ok (canonTree (.mk
        [⟨[.PlayerName .White (litBytes "w"), .PlayerName .Black (litBytes "b")]⟩]
        [.mk [⟨[.Move .Black (.Move 1 1)]⟩] []])) ∧
      treeToText (canonTree (.mk
        [⟨[.PlayerName .White (litBytes "w"), .PlayerName .Black (litBytes "b")]⟩]
        [.mk [⟨[.Move .Black (.Move 1 1)]⟩] []])) =
      treeToText (.mk
        [⟨[.PlayerName .White (litBytes "w"), .PlayerName .Black (litBytes "b")]⟩]
        [.mk [⟨[.Move .Black (.Move 1 1)]⟩] []])) :=
  ⟨by decide, C1_amended (.mk
      [⟨[.PlayerName .White (litBytes "w"), .PlayerName .Black (litBytes "b")]⟩]
      [.mk [⟨[.Move .Black (.Move 1 1)]⟩] []]) (by decide)⟩

end Sgf
